import Mathlib

/-!
Shallow embedding of the WAV/TAC audio package (TypeScript, Deno) and proofs
about its specification claims.

Modelling conventions, used throughout:

* JavaScript numbers are modelled as exact rationals (`ℚ`).  The special
  values `NaN` and `±Infinity`, which can arise when reinterpreting raw
  bytes as IEEE-754 float32, are modelled by the inductive type `JsNum`.
  Where the source stores a number into a `Float32Array`, the model keeps
  the exact rational; no settled claim depends on the float32 rounding of
  a stored value (every concrete value appearing in a theorem is exactly
  representable in float32).
* Byte buffers (`Uint8Array`, `ArrayBuffer`) are `List Nat` with entries
  below 256 by construction.
* `DataView` reads and writes are little- or big-endian as in each call
  site of the source.  An out-of-bounds read or write raises `RangeError`
  in JavaScript; fallible operations therefore return `Except JsErr _`.
* `DataView` byte offsets go through the ECMAScript `ToIndex` conversion,
  which truncates fractional values toward zero; the WAV encoder's
  sample-offset expression `44 + (i / 4) * (bitDepth / 8)` is modelled with
  that truncation applied.
* Strings are modelled by their UTF-8 byte sequences (`List Nat`), which
  is exactly what `TextEncoder.encode` produces; `TextEncoder`/`TextDecoder`
  round-trips are the identity on such byte lists.  The byte-truncation
  performed by `validate` on over-long names is modelled as `List.take`;
  this is exact whenever the truncated bytes remain valid UTF-8, and no
  theorem below exercises a name anywhere near the 256-byte limit.
-/

/-- A JavaScript number outcome: an exact finite value, `NaN`, or a signed
infinity. -/
inductive JsNum where
  | finite (q : ℚ)
  | nan
  | inf (negative : Bool)
  deriving DecidableEq, Repr

/-- Errors thrown by the modelled JavaScript runtime operations. -/
inductive JsErr where
  /-- `RangeError`: out-of-bounds or misaligned typed-array / DataView
  access, or an invalid array length. -/
  | rangeError
  /-- `TypeError` "Invalid WAV file": the RIFF or WAVE magic check failed
  (vendored decoder). -/
  | invalidWav
  /-- `TypeError` "Unsupported format in WAV file": the fmt chunk carried a
  format code other than 1 or 3 (vendored decoder); the code is recorded. -/
  | unsupportedFmt (code : ℕ)
  /-- `TypeError` "Missing fmt chunk": a data chunk was reached before any
  fmt chunk (vendored decoder). -/
  | missingFmt
  /-- `TypeError` "Unsupported data format": the (bitDepth, float) pair has
  no entry in the vendored sample-decoder table. -/
  | unsupportedData
  /-- A loop of the source that cannot terminate on this input (the sample
  loop of the repository decoder does not advance its cursor when the
  channel count is zero). -/
  | diverges
  deriving DecidableEq, Repr

/-- Decidable equality for fallible results (used to state concrete
evaluations of the embedded operations). -/
instance [DecidableEq e] [DecidableEq a] : DecidableEq (Except e a) := fun x y =>
  match x, y with
  | .error u, .error v =>
    if h : u = v then .isTrue (by rw [h]) else .isFalse (by intro hc; cases hc; exact h rfl)
  | .error _, .ok _ => .isFalse (by intro hc; cases hc)
  | .ok _, .error _ => .isFalse (by intro hc; cases hc)
  | .ok u, .ok v =>
    if h : u = v then .isTrue (by rw [h]) else .isFalse (by intro hc; cases hc; exact h rfl)

/-- `clamp(value, [-1, 1])` from `@aurellis/helpers` (external collaborator,
modelled as the usual min/max clamp). -/
def clamp (x : ℚ) : ℚ := max (-1) (min 1 x)

/-- JavaScript `Math.round`: round half toward positive infinity. -/
def jsRound (x : ℚ) : ℤ := ⌊x + 1 / 2⌋

theorem clamp_idem (x : ℚ) : clamp (clamp x) = clamp x := by
  unfold clamp
  have h1 : -1 ≤ max (-1) (min 1 x) := le_max_left _ _
  have h2 : max (-1) (min 1 x) ≤ 1 :=
    max_le (by norm_num) (min_le_left _ _)
  rw [min_eq_right h2, max_eq_right h1]

namespace Bytes

/-- Read one byte (`getUint8`); `none` models a `RangeError`. -/
def u8 (bs : List ℕ) (pos : ℕ) : Option ℕ := bs[pos]?

/-- Read a little-endian `Uint16` (`getUint16(pos, true)`). -/
def u16le (bs : List ℕ) (pos : ℕ) : Option ℕ := do
  let a ← u8 bs pos
  let b ← u8 bs (pos + 1)
  pure (a + 256 * b)

/-- Read a little-endian `Uint32` (`getUint32(pos, true)`). -/
def u32le (bs : List ℕ) (pos : ℕ) : Option ℕ := do
  let a ← u16le bs pos
  let b ← u16le bs (pos + 2)
  pure (a + 65536 * b)

/-- Read a big-endian `Uint16` (`getUint16(pos)`). -/
def u16be (bs : List ℕ) (pos : ℕ) : Option ℕ := do
  let a ← u8 bs pos
  let b ← u8 bs (pos + 1)
  pure (256 * a + b)

/-- Read a big-endian `Uint32` (`getUint32(pos)`). -/
def u32be (bs : List ℕ) (pos : ℕ) : Option ℕ := do
  let a ← u16be bs pos
  let b ← u16be bs (pos + 2)
  pure (65536 * a + b)

/-- Read a little-endian `Int16` (`getInt16(pos, true)`): two's complement. -/
def i16le (bs : List ℕ) (pos : ℕ) : Option ℤ := do
  let v ← u16le bs pos
  pure (if v < 32768 then (v : ℤ) else (v : ℤ) - 65536)

/-- Read a little-endian `Int32` (`getInt32(pos, true)`): two's complement. -/
def i32le (bs : List ℕ) (pos : ℕ) : Option ℤ := do
  let v ← u32le bs pos
  pure (if v < 2147483648 then (v : ℤ) else (v : ℤ) - 4294967296)

/-- Write one byte at `pos` in a fixed-size buffer; out-of-bounds writes do
not occur in the encoder (the buffer is pre-sized), and are modelled as
no-ops like a typed-array out-of-bounds store. -/
def set1 (bs : List ℕ) (pos : ℕ) (v : ℕ) : List ℕ := bs.set pos (v % 256)

/-- `setUint16(pos, v, true)`: little-endian. -/
def set16le (bs : List ℕ) (pos : ℕ) (v : ℕ) : List ℕ :=
  set1 (set1 bs pos (v % 256)) (pos + 1) (v / 256 % 256)

/-- `setUint32(pos, v, true)`: little-endian. -/
def set32le (bs : List ℕ) (pos : ℕ) (v : ℕ) : List ℕ :=
  set16le (set16le bs pos (v % 65536)) (pos + 2) (v / 65536 % 65536)

/-- `setUint32(pos, v, false)`: big-endian. -/
def set32be (bs : List ℕ) (pos : ℕ) (v : ℕ) : List ℕ :=
  set1 (set1 (set1 (set1 bs pos (v / 16777216 % 256)) (pos + 1) (v / 65536 % 256)) (pos + 2) (v / 256 % 256)) (pos + 3) (v % 256)

/-- `setInt16(pos, v, true)`: the two's-complement little-endian image of an
integer (the source always passes values in range). -/
def setI16le (bs : List ℕ) (pos : ℕ) (v : ℤ) : List ℕ :=
  set16le bs pos (v % 65536).toNat

/-- `setInt32(pos, v, true)`. -/
def setI32le (bs : List ℕ) (pos : ℕ) (v : ℤ) : List ℕ :=
  set32le bs pos (v % 4294967296).toNat

end Bytes

/-- `TypedArray.prototype.subarray(begin, end)` index normalisation: negative
indices count from the end, and the result is clamped to the array. -/
def jsSubIdx (len : ℕ) (i : ℤ) : ℕ :=
  if i < 0 then ((len : ℤ) + i).toNat.min len else i.toNat.min len

/-- `arr.subarray(b, e)` on a list. -/
def jsSubarray (l : List α) (b e : ℤ) : List α :=
  (l.take (jsSubIdx l.length e)).drop (jsSubIdx l.length b)

/-- `arr.subarray(b)` (to the end of the array). -/
def jsSubarrayFrom (l : List α) (b : ℤ) : List α :=
  l.drop (jsSubIdx l.length b)

example : jsSubarray [10, 20, 30, 40] 1 3 = [20, 30] := by decide
example : jsSubarrayFrom [10, 20, 30, 40] 6 = ([] : List ℕ) := by decide
example : jsSubarrayFrom [10, 20, 30, 40] (-2) = [30, 40] := by decide

/-! ## IEEE-754 binary32 byte codec

`Float32Array` element access and `DataView.getFloat32`/`setFloat32` move
between four little-endian bytes and a float32 value.  The decode direction
is exact; the encode direction implements round-to-nearest, ties-to-even.
No theorem below depends on any numeric property of these functions: they
only appear so that the embedded definitions are total and executable. -/

/-- Integer power of two as a rational (negative exponents allowed). -/
def pow2 (e : ℤ) : ℚ := if 0 ≤ e then (2 ^ e.toNat : ℚ) else 1 / (2 ^ (-e).toNat : ℚ)

/-- Reinterpret four little-endian bytes as a float32 value. -/
def f32FromBytes (b0 b1 b2 b3 : ℕ) : JsNum :=
  let bits : ℕ := b0 % 256 + 256 * (b1 % 256) + 65536 * (b2 % 256) + 16777216 * (b3 % 256)
  let sign : ℕ := bits / 2 ^ 31
  let expo : ℕ := bits / 2 ^ 23 % 256
  let frac : ℕ := bits % 2 ^ 23
  if expo = 255 then
    if frac = 0 then .inf (sign == 1) else .nan
  else
    let mag : ℚ :=
      if expo = 0 then (frac : ℚ) * pow2 (-149)
      else ((2 ^ 23 + frac : ℕ) : ℚ) * pow2 ((expo : ℤ) - 150)
    .finite (if sign = 1 then -mag else mag)

/-- Round a nonnegative rational to the nearest natural, ties to even. -/
def rndNE (r : ℚ) : ℕ :=
  let n := (⌊r⌋).toNat
  let f := r - ⌊r⌋
  if 1 / 2 < f then n + 1
  else if f < 1 / 2 then n
  else if n % 2 = 0 then n else n + 1

/-- The float32 bit pattern of a rational (round to nearest, ties to even;
overflow gives the infinity pattern). -/
def f32bits (q : ℚ) : ℕ :=
  if q = 0 then 0
  else
    let s : ℕ := if q < 0 then 1 else 0
    let a : ℚ := |q|
    let e0 : ℤ := (Nat.log2 a.num.natAbs : ℤ) - (Nat.log2 a.den : ℤ)
    let e : ℤ :=
      (((List.range 5).map (fun k => e0 - 2 + k)).find?
        (fun e => pow2 e ≤ a ∧ a < pow2 (e + 1))).getD e0
    if e < -126 then
      -- subnormal range
      let m := rndNE (a * pow2 149)
      if m < 2 ^ 23 then s * 2 ^ 31 + m else s * 2 ^ 31 + 2 ^ 23
    else
      let m := rndNE (a * pow2 (23 - e))
      let em : ℤ × ℕ := if m = 2 ^ 24 then (e + 1, 2 ^ 23) else (e, m)
      if 127 < em.1 then s * 2 ^ 31 + 255 * 2 ^ 23
      else s * 2 ^ 31 + (em.1 + 127).toNat * 2 ^ 23 + (em.2 - 2 ^ 23)

/-- The four little-endian bytes `setFloat32(pos, q, true)` stores. -/
def f32leBytes (q : ℚ) : List ℕ :=
  let b := f32bits q
  [b % 256, b / 256 % 256, b / 65536 % 256, b / 16777216 % 256]

example : f32FromBytes 0 0 128 63 = .finite 1 := by
  norm_num [f32FromBytes, pow2, Int.toNat]
example : f32FromBytes 0 0 192 255 = .nan := by
  norm_num [f32FromBytes]
example : f32bits 0 = 0 := rfl

/-! ## WAV encoder (`src/binary/encode.ts`) -/

/-- The `WAVFormat` string union from `src/types.ts`; `encode` derives
`bitDepth = Number(format.substring(0, 2))` and
`float = format.at(-2) === "a"` from it. -/
inductive WAVFormat where
  | int8 | int16 | int24 | int32 | float32
  deriving DecidableEq, Repr

namespace WAVFormat

/-- `Number(format.substring(0, 2))`. -/
def bits : WAVFormat → ℕ
  | .int8 => 8
  | .int16 => 16
  | .int24 => 24
  | .int32 => 32
  | .float32 => 32

/-- `format.at(-2) === "a"` (`"32-bit Float".at(-2) = 'a'`). -/
def isFloat : WAVFormat → Bool
  | .float32 => true
  | _ => false

end WAVFormat

namespace WavEnc

open Bytes

/-- `encoders.i8`: `setUint8(pos, round((clamp(value,[-1,1]) + 1) * 127.5))`. -/
def encI8 (bs : List ℕ) (pos : ℕ) (value : ℚ) : List ℕ :=
  set1 bs pos (jsRound ((clamp value + 1) * (255 / 2))).toNat

/-- `encoders.i16`: `setInt16(pos, round(clamp(value,[-1,1]) * 32767), true)`. -/
def encI16 (bs : List ℕ) (pos : ℕ) (value : ℚ) : List ℕ :=
  setI16le bs pos (jsRound (clamp value * 32767))

/-- `encoders.i24`: manual two's complement over three little-endian bytes. -/
def encI24 (bs : List ℕ) (pos : ℕ) (value : ℚ) : List ℕ :=
  let scaled := jsRound (clamp value * 8388607)
  let v : ℕ := (if scaled < 0 then scaled + 16777216 else scaled).toNat
  set1 (set1 (set1 bs pos (v % 256)) (pos + 1) (v / 256 % 256)) (pos + 2) (v / 65536 % 256)

/-- `encoders.i32`: `setInt32(pos, round(clamp(value,[-1,1]) * 2147483647), true)`. -/
def encI32 (bs : List ℕ) (pos : ℕ) (value : ℚ) : List ℕ :=
  setI32le bs pos (jsRound (clamp value * 2147483647))

/-- `encoders.f32`: `setFloat32(pos, clamp(value,[-1,1]), true)`. -/
def encF32 (bs : List ℕ) (pos : ℕ) (value : ℚ) : List ℕ :=
  match f32leBytes (clamp value) with
  | [b0, b1, b2, b3] =>
      set1 (set1 (set1 (set1 bs pos b0) (pos + 1) b1) (pos + 2) b2) (pos + 3) b3
  | _ => bs

/-- `getEncoder`: string-keyed lookup `(float ? "f" : "i") + bits` with
fallback to `encoders.i8` when the key is absent. -/
def getEncoder (float : Bool) (bits : ℕ) : List ℕ → ℕ → ℚ → List ℕ :=
  if float then
    if bits = 32 then encF32 else encI8
  else
    if bits = 8 then encI8
    else if bits = 16 then encI16
    else if bits = 24 then encI24
    else if bits = 32 then encI32
    else encI8

/-- `ArrOp.interleave(...channelData)` from `@aurellis/helpers` (external
collaborator): frame-major interleaving, `[c0[0], c1[0], …, c0[1], c1[1], …]`.
The frame count is taken from the first channel, matching the buffer size
`channelData[0].length * channelCount * (bitDepth / 8)` computed by `encode`;
a missing sample reads as 0. -/
def interleave (channelData : List (List ℚ)) : List ℚ :=
  (List.range (channelData.head?.getD []).length).flatMap
    (fun i => channelData.map (fun ch => ch.getD i 0))

/-- `encode(channelData, sampleRate, format)` from `src/binary/encode.ts`.

The RIFF/fmt/data header is written at fixed offsets, then every
interleaved sample `i` is written at byte offset
`44 + (i / 4) * (bitDepth / 8)` — the fractional offset is truncated by the
ECMAScript `ToIndex` conversion inside the `DataView` setters, which this
model reproduces as `44 + i * bitDepth / 32` in natural division.
`encode([])` throws a `TypeError` (`channelData[0].length` on `undefined`). -/
def wavEncode (channelData : List (List ℚ)) (sampleRate : ℕ) (format : WAVFormat) :
    Except JsErr (List ℕ) :=
  match channelData with
  | [] => .error .rangeError
  | c0 :: _ =>
    let channelCount := channelData.length
    let bitDepth := format.bits
    let bytesPerSec := sampleRate * channelCount * bitDepth / 8
    let bytesPerBlock := channelCount * bitDepth / 8
    let audioDataLength := c0.length * channelCount * (bitDepth / 8)
    let float := format.isFloat
    let b0 := List.replicate (44 + audioDataLength) 0
    let b1 := set32be b0 0 0x52494646
    let b2 := set32le b1 4 (36 + audioDataLength)
    let b3 := set32be b2 8 0x57415645
    let b4 := set32be b3 12 0x666d7420
    let b5 := set32le b4 16 16
    let b6 := set16le b5 20 (if float then 3 else 1)
    let b7 := set16le b6 22 channelCount
    let b8 := set32le b7 24 sampleRate
    let b9 := set32le b8 28 bytesPerSec
    let b10 := set16le b9 32 bytesPerBlock
    let b11 := set16le b10 34 bitDepth
    let b12 := set32be b11 36 0x64617461
    let b13 := set32le b12 40 audioDataLength
    let inter := interleave channelData
    .ok ((List.range inter.length).foldl
      (fun b i => getEncoder float bitDepth b (44 + i * bitDepth / 32) (inter.getD i 0)) b13)

end WavEnc

/-- Promote an optional read to a fallible computation (`RangeError` on a
missing byte, as `DataView` accessors throw). -/
def orRange : Option α → Except JsErr α
  | some a => .ok a
  | none => .error .rangeError

/-- Reinterpret eight little-endian bytes as a float64 value (used only by
the vendored `pcm64f` decoder, which `decode` can select for a 64-bit float
fmt chunk). -/
def f64FromBytes (b : List ℕ) : JsNum :=
  let bits : ℕ := (List.range 8).foldr (fun i acc => acc * 256 + b.getD (7 - i) 0 % 256) 0
  let sign : ℕ := bits / 2 ^ 63
  let expo : ℕ := bits / 2 ^ 52 % 2048
  let frac : ℕ := bits % 2 ^ 52
  if expo = 2047 then
    if frac = 0 then .inf (sign == 1) else .nan
  else
    let mag : ℚ :=
      if expo = 0 then (frac : ℚ) * pow2 (-1074)
      else ((2 ^ 52 + frac : ℕ) : ℚ) * pow2 ((expo : ℤ) - 1075)
    .finite (if sign = 1 then -mag else mag)

/-! ## Repository WAV decoder (`src/binary/decode.ts`)

This is the decoder `WAV.fromFile` uses.  Its doc comment reads "This
assumes that the file is a valid WAV."; it performs no RIFF/WAVE magic
check and reads header fields at fixed byte offsets. -/

namespace RepoDec

open Bytes

/-- `decoders.i8`: `view.getUint8(pos)` (no rescaling). -/
def decI8 (bs : List ℕ) (pos : ℕ) : Option JsNum :=
  (u8 bs pos).map (fun v => .finite v)

/-- `decoders.i16`: `view.getInt16(pos, true)` (no rescaling). -/
def decI16 (bs : List ℕ) (pos : ℕ) : Option JsNum :=
  (i16le bs pos).map (fun v => .finite v)

/-- `decoders.i24`: three bytes combined little-endian; `val |= 0xff000000`
on a set bit 23 makes the 32-bit result negative. -/
def decI24 (bs : List ℕ) (pos : ℕ) : Option JsNum := do
  let byte1 ← u8 bs pos
  let byte2 ← u8 bs (pos + 1)
  let byte3 ← u8 bs (pos + 2)
  let val : ℤ := 65536 * byte3 + 256 * byte2 + byte1
  pure (.finite (if 8388608 ≤ val then val - 16777216 else val))

/-- `decoders.i32`: `view.getInt32(pos, true)` (no rescaling). -/
def decI32 (bs : List ℕ) (pos : ℕ) : Option JsNum :=
  (i32le bs pos).map (fun v => .finite v)

/-- `decoders.f32`: `view.getFloat32(pos, true)`. -/
def decF32 (bs : List ℕ) (pos : ℕ) : Option JsNum := do
  let b0 ← u8 bs pos
  let b1 ← u8 bs (pos + 1)
  let b2 ← u8 bs (pos + 2)
  let b3 ← u8 bs (pos + 3)
  pure (f32FromBytes b0 b1 b2 b3)

/-- `decoders.f64`: `view.getFloat64(pos, true)`. -/
def decF64 (bs : List ℕ) (pos : ℕ) : Option JsNum :=
  if pos + 8 ≤ bs.length then some (f64FromBytes ((bs.drop pos).take 8)) else none

/-- `getDecoder`: string-keyed lookup `(float ? "f" : "i") + bits`, falling
back to `decoders.i8` on a missing key.  `decode` only calls it after
coercing `bits` into {8,16,24,32}, so the `f64` entry is unreachable from
`decode` but present in the table. -/
def getDecoder (float : Bool) (bits : ℕ) : List ℕ → ℕ → Option JsNum :=
  if float then
    if bits = 32 then decF32
    else if bits = 64 then decF64
    else decI8
  else
    if bits = 8 then decI8
    else if bits = 16 then decI16
    else if bits = 24 then decI24
    else if bits = 32 then decI32
    else decI8

/-- Store `v` at `channels[ch][block]`; an out-of-range typed-array store is
a silent no-op. -/
def store (chs : List (List JsNum)) (ch block : ℕ) (v : JsNum) : List (List JsNum) :=
  chs.set ch ((chs.getD ch []).set block v)

/-- One frame of the sample loop: read every channel at consecutive
positions and store into `channels[channel][block]`. -/
def readFrame (bytes : List ℕ) (float : Bool) (bits : ℕ) (block cursor : ℕ) :
    (chans : List ℕ) → (chs : List (List JsNum)) → Except JsErr (List (List JsNum))
  | [], chs => .ok chs
  | ch :: rest, chs => do
    let v ← orRange (getDecoder float bits bytes cursor)
    readFrame bytes float bits block (cursor + bits / 8) rest (store chs ch block v)

/-- The outer sample loop of `decode` (`for cursor = 44, block = 0; cursor <
bytes.length; block++`); the cursor advances by `channelCount * bits / 8`
per block. -/
def sampleLoop (bytes : List ℕ) (float : Bool) (bits : ℕ) (channelCount : ℕ)
    (hstep : 0 < channelCount * (bits / 8)) (cursor block : ℕ)
    (chs : List (List JsNum)) : Except JsErr (List (List JsNum)) :=
  if h : cursor < bytes.length then do
    let chs' ← readFrame bytes float bits block cursor (List.range channelCount) chs
    sampleLoop bytes float bits channelCount hstep (cursor + channelCount * (bits / 8))
      (block + 1) chs'
  else .ok chs
  termination_by bytes.length - cursor
  decreasing_by omega

/-- `decode(bytes)` from `src/binary/decode.ts`: fixed-offset header reads,
bits-per-sample coerced into {8,16,24,32} (default 16), then the sample
loop.  A zero channel count with payload bytes present makes the source
loop spin forever (the cursor only advances inside the channel loop); the
model returns `JsErr.diverges` for that input class. -/
def decode (bytes : List ℕ) : Except JsErr (ℕ × List (List JsNum)) := do
  let fmtCode ← orRange (u16le bytes 20)
  let float := fmtCode == 3
  let channelCount ← orRange (u16le bytes 22)
  let sampleRate ← orRange (u32le bytes 24)
  let _bytesPerBlock ← orRange (u16le bytes 32)
  let bits0 ← orRange (u16le bytes 34)
  let bits := if bits0 = 8 ∨ bits0 = 16 ∨ bits0 = 24 ∨ bits0 = 32 then bits0 else 16
  if hc : channelCount = 0 then
    if bytes.length ≤ 44 then pure (sampleRate, []) else .error .diverges
  else
    let denom := channelCount * (bits / 8)
    have hstep : 0 < denom := by
      have hb : bits / 8 = 1 ∨ bits / 8 = 2 ∨ bits / 8 = 3 ∨ bits / 8 = 4 := by
        simp only [bits]
        rcases Decidable.em (bits0 = 8 ∨ bits0 = 16 ∨ bits0 = 24 ∨ bits0 = 32) with h | h
        · rcases h with h | h | h | h <;> simp [h]
        · simp [h]
      have : 0 < channelCount := Nat.pos_of_ne_zero hc
      rcases hb with h | h | h | h <;> simp [denom, h] <;> omega
    let sampleLength ←
      if bytes.length < 44 then
        if 44 - bytes.length < denom then pure 0 else Except.error JsErr.rangeError
      else pure ((bytes.length - 44) / denom)
    let chs := List.replicate channelCount (List.replicate sampleLength (JsNum.finite 0))
    let out ← sampleLoop bytes float bits channelCount hstep 44 0 chs
    pure (sampleRate, out)

end RepoDec

/-! ## Vendored node-wav decoder (`src/vendor/node-wav-decode.ts`) -/

namespace NodeWav

open Bytes

/-- The fmt record assembled from a "fmt " chunk. -/
structure Fmt where
  floatingPoint : Bool
  channels : ℕ
  sampleRate : ℕ
  byteRate : ℕ
  blockSize : ℕ
  bitDepth : ℕ
  deriving DecidableEq, Repr

/-- Read four bytes as character codes (`string(4)`). -/
def read4 (bs : List ℕ) (pos : ℕ) : Option (List ℕ) := do
  let a ← u8 bs pos
  let b ← u8 bs (pos + 1)
  let c ← u8 bs (pos + 2)
  let d ← u8 bs (pos + 3)
  pure [a, b, c, d]

/-- Character codes of "RIFF". -/
def riffMagic : List ℕ := [82, 73, 70, 70]
/-- Character codes of "WAVE". -/
def waveMagic : List ℕ := [87, 65, 86, 69]
/-- Character codes of "fmt ". -/
def fmtTag : List ℕ := [102, 109, 116, 32]
/-- Character codes of "data". -/
def dataTag : List ℕ := [100, 97, 116, 97]

/-- `data_decoders.pcm8` on one element: `(input[pos] - 128)` scaled
asymmetrically; an out-of-range read yields `undefined`, which the
subtraction turns into `NaN`. -/
def pcm8Val (b : Option ℕ) : JsNum :=
  match b with
  | none => .nan
  | some v => .finite (if (v : ℤ) - 128 < 0 then ((v : ℚ) - 128) / 128 else ((v : ℚ) - 128) / 127)

/-- `data_decoders.pcm16` on one element. -/
def pcm16Val (d : Option ℤ) : JsNum :=
  match d with
  | none => .nan
  | some v => .finite (if v < 0 then (v : ℚ) / 32768 else (v : ℚ) / 32767)

/-- `data_decoders.pcm24` on one element: `xx = x0 + (x1 << 8) + (x2 << 16)`
(a shift coerces `undefined` to 0, while `x0 + undefined` is `NaN`), then
`data = xx > 8388608 ? xx - 16777216 : xx` — note the strict comparison
leaves the pattern 0x800000 positive. -/
def pcm24Val (x0 x1 x2 : Option ℕ) : JsNum :=
  match x0 with
  | none => .nan
  | some v0 =>
    let xx : ℤ := v0 + 256 * (x1.getD 0) + 65536 * (x2.getD 0)
    let data : ℤ := if 8388608 < xx then xx - 16777216 else xx
    .finite (if data < 0 then (data : ℚ) / 8388608 else (data : ℚ) / 8388607)

/-- `data_decoders.pcm32` on one element. -/
def pcm32Val (d : Option ℤ) : JsNum :=
  match d with
  | none => .nan
  | some v => .finite (if v < 0 then (v : ℚ) / 2147483648 else (v : ℚ) / 2147483647)

/-- Decode the interleaved data region starting at byte `offset` into
per-channel lists: `output[ch][i]` is element `i * channels + ch` of the
typed-array view.  Constructing `Int16Array`/`Int32Array`/`Float32Array`/
`Float64Array` over `buffer` at `offset` throws a `RangeError` when the
offset is out of range, misaligned, or leaves a byte count that is not a
multiple of the element size; element reads beyond the view yield
`undefined` and hence `NaN` outcomes, not errors. -/
def decodeData (bitDepth : ℕ) (floatingPoint : Bool) (bytes : List ℕ) (offset : ℕ)
    (channels samples : ℕ) : Except JsErr (List (List JsNum)) :=
  let elem8 (idx : ℕ) : Option ℕ := bytes[offset + idx]?
  let inBounds (es idx : ℕ) : Bool := offset + (idx + 1) * es ≤ bytes.length
  let build (f : ℕ → JsNum) : List (List JsNum) :=
    (List.range channels).map (fun ch => (List.range samples).map (fun i => f (i * channels + ch)))
  let checkAligned (es : ℕ) : Except JsErr Unit :=
    if offset ≤ bytes.length ∧ offset % es = 0 ∧ (bytes.length - offset) % es = 0 then .ok ()
    else .error .rangeError
  match bitDepth, floatingPoint with
  | 8, false =>
    if offset ≤ bytes.length then .ok (build (fun idx => pcm8Val (elem8 idx)))
    else .error .rangeError
  | 16, false => do
    checkAligned 2
    .ok (build (fun idx => pcm16Val (if inBounds 2 idx then i16le bytes (offset + 2 * idx) else none)))
  | 24, false =>
    if offset ≤ bytes.length then
      .ok (build (fun idx => pcm24Val (elem8 (3 * idx)) (elem8 (3 * idx + 1)) (elem8 (3 * idx + 2))))
    else .error .rangeError
  | 32, false => do
    checkAligned 4
    .ok (build (fun idx => pcm32Val (if inBounds 4 idx then i32le bytes (offset + 4 * idx) else none)))
  | 32, true => do
    checkAligned 4
    .ok (build (fun idx =>
      if inBounds 4 idx then
        f32FromBytes (bytes.getD (offset + 4 * idx) 0) (bytes.getD (offset + 4 * idx + 1) 0)
          (bytes.getD (offset + 4 * idx + 2) 0) (bytes.getD (offset + 4 * idx + 3) 0)
      else .nan))
  | 64, true => do
    checkAligned 8
    .ok (build (fun idx =>
      if inBounds 8 idx then f64FromBytes ((bytes.drop (offset + 8 * idx)).take 8) else .nan))
  | _, _ => .error .unsupportedData

/-- The chunk walk of `decode`: read a 4-byte tag and 4-byte size, handle
"fmt " and "data", skip anything else; `pos` advances to `pos + 8 + size`
each iteration. -/
def chunkWalk (bytes : List ℕ) (pos : ℕ) (fmt : Option Fmt) :
    Except JsErr (ℕ × List (List JsNum)) :=
  if h : pos < bytes.length then do
    let tag ← orRange (read4 bytes pos)
    let size ← orRange (u32le bytes (pos + 4))
    if tag = fmtTag then do
      let formatId ← orRange (u16le bytes (pos + 8))
      if formatId ≠ 1 ∧ formatId ≠ 3 then .error (.unsupportedFmt formatId)
      else do
        let channels ← orRange (u16le bytes (pos + 10))
        let sampleRate ← orRange (u32le bytes (pos + 12))
        let byteRate ← orRange (u32le bytes (pos + 16))
        let blockSize ← orRange (u16le bytes (pos + 20))
        let bitDepth ← orRange (u16le bytes (pos + 22))
        chunkWalk bytes (pos + 8 + size)
          (some ⟨formatId == 3, channels, sampleRate, byteRate, blockSize, bitDepth⟩)
    else if tag = dataTag then
      match fmt with
      | none => .error .missingFmt
      | some f => do
        let samples ←
          if f.blockSize = 0 then
            if size = 0 then pure 0 else Except.error JsErr.rangeError
          else pure (size / f.blockSize)
        let out ← decodeData f.bitDepth f.floatingPoint bytes (pos + 8) f.channels samples
        pure (f.sampleRate, out)
    else chunkWalk bytes (pos + 8 + size) fmt
  else .ok (44100, [])
  termination_by bytes.length - pos
  decreasing_by all_goals omega

/-- `decode(bytes)` from `src/vendor/node-wav-decode.ts`: check the RIFF and
WAVE magics (TypeError "Invalid WAV file" otherwise), then walk the chunks. -/
def decode (bytes : List ℕ) : Except JsErr (ℕ × List (List JsNum)) := do
  let m1 ← orRange (read4 bytes 0)
  if m1 ≠ riffMagic then .error .invalidWav
  else do
    let _ ← orRange (u32le bytes 4)
    let m2 ← orRange (read4 bytes 8)
    if m2 ≠ waveMagic then .error .invalidWav
    else chunkWalk bytes 12 none

end NodeWav

/-! ## The WAV domain class (`src/wav.ts`) -/

/-- The `WAV` class data: raw channel samples and a sample rate. -/
structure Wav where
  raw : List (List ℚ)
  sampleRate : ℕ
  deriving DecidableEq, Repr

namespace Wav

/-- `get hasValidSampleCount` from `src/wav.ts`, exactly as written:
`this.raw.every((c, _, a) => c.length === a[0].length && c.every(x => x >= 1 && x <= 1))`.
Note the sample-range conjunct compares `x >= 1`, not `x >= -1`. -/
def hasValidSampleCount (w : Wav) : Bool :=
  w.raw.all (fun c =>
    c.length == (w.raw.headD []).length && c.all (fun x => decide (1 ≤ x) && decide (x ≤ 1)))

/-- The property the doc comment of `hasValidSampleCount` describes: all
channels share one length and "All samples are in the valid range (-1 to 1
inclusive)". -/
def hasValidSampleCountDoc (w : Wav) : Bool :=
  w.raw.all (fun c =>
    c.length == (w.raw.headD []).length && c.all (fun x => decide (-1 ≤ x) && decide (x ≤ 1)))

end Wav

/-! ## The TAC container (`src/binary/encode.ts`, class `TAC`) -/

/-- `TacDictEntry` from `src/types.ts`.  `indexOffset` is an integer because
`removeEntry` decrements offsets with ordinary JavaScript subtraction, which
can pass through negative values on corrupt containers.  `name` is the
UTF-8 byte sequence of the entry name. -/
structure TacDictEntry where
  indexOffset : ℤ
  sampleCount : ℕ
  sampleRate : ℕ
  channelCount : ℕ
  nameLength : ℕ
  name : List ℕ
  deriving DecidableEq, Repr

/-- `entryDataLength`: samples occupied in the arena. -/
def entryDataLength (e : TacDictEntry) : ℕ := e.sampleCount * e.channelCount

/-- The `TAC` class state: cached dictionary byte length, the dictionary (a
`Map` in insertion order, modelled as a list whose key is the `name` field),
and the sample arena.  The arena element type is a parameter: `ℚ` for
containers built through `writeEntry`, `JsNum` for containers decoded from
bytes. -/
structure TAC (α : Type) where
  dictLength : ℤ
  dict : List TacDictEntry
  dataChunk : List α
  deriving DecidableEq, Repr

namespace TAC

/-- `new TAC()`. -/
def empty : TAC α := ⟨0, [], []⟩

/-- `this.dict.has(name)`. -/
def dictHas (dict : List TacDictEntry) (n : List ℕ) : Bool :=
  dict.any (fun e => e.name == n)

/-- `this.dict.get(name)`. -/
def dictGet (dict : List TacDictEntry) (n : List ℕ) : Option TacDictEntry :=
  dict.find? (fun e => e.name == n)

/-- `Map.prototype.set`: replace in place when the key exists, otherwise
append in insertion order. -/
def mapSet (dict : List TacDictEntry) (e : TacDictEntry) : List TacDictEntry :=
  if dictHas dict e.name then dict.map (fun x => if x.name == e.name then e else x)
  else dict ++ [e]

/-- `Map.prototype.delete`. -/
def mapDelete (dict : List TacDictEntry) (n : List ℕ) : List TacDictEntry :=
  dict.filter (fun e => !(e.name == n))

/-- `removeEntry(entryName)`: splice the entry's sample range out of the
arena with `subarray`, shift every later offset down by the removed data
length, and delete the dictionary entry; a missing name is a warn-and-no-op. -/
def removeEntry (c : TAC α) (entryName : List ℕ) : TAC α :=
  match dictGet c.dict entryName with
  | none => c
  | some entry =>
    let nameLength := entry.name.length
    let dataLength := entryDataLength entry
    { dictLength := c.dictLength - (15 + nameLength : ℕ)
      dataChunk := jsSubarray c.dataChunk 0 entry.indexOffset ++
        jsSubarrayFrom c.dataChunk (entry.indexOffset + dataLength)
      dict := (c.dict.map (fun e =>
          if entry.indexOffset < e.indexOffset then
            { e with indexOffset := e.indexOffset - dataLength }
          else e)).filter (fun e => !(e.name == entryName)) }

/-- `writeEntry(entryName, wav)`: reject a wav failing `hasValidSampleCount`;
otherwise delete an existing dictionary entry for the name (the arena is not
touched by this deletion), append the wav's channels to the arena in
channel-major order, and insert the new entry with
`indexOffset = this.dataChunk.length`. -/
def writeEntry (c : TAC ℚ) (entryName : List ℕ) (wav : Wav) : TAC ℚ :=
  if ¬ wav.hasValidSampleCount then c
  else
    let dict1 := if dictHas c.dict entryName then mapDelete c.dict entryName else c.dict
    let thisEntry : TacDictEntry :=
      { sampleCount := (wav.raw.headD []).length
        channelCount := wav.raw.length
        sampleRate := wav.sampleRate
        indexOffset := (c.dataChunk.length : ℤ)
        nameLength := entryName.length
        name := entryName }
    { dictLength := c.dictLength + (15 + thisEntry.nameLength : ℕ)
      dict := mapSet dict1 thisEntry
      dataChunk := c.dataChunk ++ wav.raw.flatten }

/-- `readEntry(entryName)`: a missing name returns the default
`{ sampleRate: 44100, channelData: [] }`; otherwise channel `i` is
`dataChunk.subarray(offset + i * sampleCount, offset + (i+1) * sampleCount)`. -/
def readEntry (c : TAC α) (entryName : List ℕ) : ℕ × List (List α) :=
  match dictGet c.dict entryName with
  | none => (44100, [])
  | some e =>
    (e.sampleRate, (List.range e.channelCount).map (fun i =>
      jsSubarray c.dataChunk (e.indexOffset + i * e.sampleCount)
        (e.indexOffset + (i + 1) * e.sampleCount)))

/-- The per-entry normalisation `validate` applies before its checks: reset
`nameLength` from the encoded name, truncating names longer than 256 bytes
(the byte truncation `slice(0, 256)` is modelled as `List.take 256`; in the
source the `Map` key keeps the untruncated name, an aliasing this model does
not reproduce — no theorem below involves a name over 256 bytes). -/
def normName (e : TacDictEntry) : TacDictEntry :=
  if 256 < e.name.length then { e with name := e.name.take 256, nameLength := 256 }
  else { e with nameLength := e.name.length }

/-- The validity check of `validate` on a (normalised) entry: the offset must
be below the arena length and the data must not extend past the arena. -/
def entryValid (arenaLen : ℕ) (e : TacDictEntry) : Bool :=
  !((arenaLen : ℤ) ≤ e.indexOffset) && !((arenaLen : ℤ) < e.indexOffset + entryDataLength e)

/-- One pass of `validate`: normalise every entry, collect the names of
entries failing either check, and remove them via `removeEntry`. -/
def validatePass (c : TAC α) : TAC α × Bool :=
  let dict1 := c.dict.map normName
  let invalidEntries := (dict1.filter (fun e => !(entryValid c.dataChunk.length e))).map (·.name)
  let c1 : TAC α := { c with dict := dict1 }
  (invalidEntries.foldl (fun acc n => removeEntry acc n) c1, !invalidEntries.isEmpty)

/-- `validate(alreadyValidated)`: one pass; if it removed anything and this
is the first pass, run exactly one more pass. -/
def validateAux (c : TAC α) (alreadyValidated : Bool) : TAC α :=
  let (c1, removed) := validatePass c
  if removed && !alreadyValidated then (validatePass c1).1 else c1

/-- `validate()` as called externally. -/
def validate (c : TAC α) : TAC α := validateAux c false

end TAC

namespace TAC

/-- The dictionary-parsing loop of `TAC.from`, including its `try`/`catch`:
a failing read mid-entry abandons that entry and returns the dictionary
parsed so far.  Entry fields are read big-endian at `cursor`:
`indexOffset:u32, sampleRate:u32, sampleCount:u32, channelCount:u16,
nameLength:u8`, then `nameLength` bytes of name (`subarray` clamps, so the
name read never fails). -/
def parseDict (raw : List ℕ) (dictLength : ℕ) (cursor : ℕ) (dict : List TacDictEntry) :
    List TacDictEntry :=
  if _h : cursor < dictLength + 4 then
    match Bytes.u32be raw cursor, Bytes.u32be raw (cursor + 4), Bytes.u32be raw (cursor + 8),
        Bytes.u16be raw (cursor + 12), Bytes.u8 raw (cursor + 14) with
    | some io, some sr, some sc, some cc, some nl =>
      parseDict raw dictLength (cursor + 15 + nl)
        (mapSet dict
          { indexOffset := (io : ℤ), sampleRate := sr, sampleCount := sc,
            channelCount := cc, nameLength := nl,
            name := (raw.drop (cursor + 15)).take nl })
    | _, _, _, _, _ => dict
  else dict
  termination_by dictLength + 4 - cursor
  decreasing_by omega

/-- `TAC.from(raw)`.  The arena `Float32Array(raw.buffer, dictLength + 4,
(raw.length - dictLength - 4) / 4)` is constructed *before* the `try` block:
a fractional length truncates (ECMAScript `ToIndex`), but a length at most
-1, a misaligned byte offset, or an out-of-range view make the constructor
throw a `RangeError` that nothing catches, so `from` itself throws. -/
def «from» (raw : List ℕ) : Except JsErr (TAC JsNum) :=
  let dictLength : ℕ := if 4 ≤ raw.length then (Bytes.u32be raw 0).getD 0 else 0
  let num : ℤ := (raw.length : ℤ) - dictLength - 4
  if num ≤ -4 then .error .rangeError
  else
    let L : ℕ := if num < 0 then 0 else num.toNat / 4
    if ¬((dictLength + 4) % 4 = 0) then .error .rangeError
    else if raw.length < dictLength + 4 + 4 * L then .error .rangeError
    else
      .ok
        { dictLength := (dictLength : ℤ)
          dict := parseDict raw dictLength 4 []
          dataChunk := (List.range L).map (fun i =>
            f32FromBytes (raw.getD (dictLength + 4 + 4 * i) 0)
              (raw.getD (dictLength + 4 + 4 * i + 1) 0)
              (raw.getD (dictLength + 4 + 4 * i + 2) 0)
              (raw.getD (dictLength + 4 + 4 * i + 3) 0)) }

end TAC

/-! ## Concrete instances used by evaluations, counterexamples and witnesses -/

/-- A wav whose single channel holds the sample 0: equal channel lengths and
every sample inside [-1, 1]. -/
def wZero : Wav := ⟨[[0]], 48000⟩

/-- A wav whose single channel holds the sample 1 (the only sample value the
miswritten range check accepts). -/
def wOne : Wav := ⟨[[1]], 44100⟩

/-- The UTF-8 bytes of the entry name "a". -/
def aName : List ℕ := [97]

/-- The container after `writeEntry("a", wOne)` on an empty TAC. -/
def cOnce : TAC ℚ := TAC.writeEntry TAC.empty aName wOne

/-- The container after writing "a" twice (an overwrite). -/
def cTwice : TAC ℚ := TAC.writeEntry cOnce aName wOne

/-- Sum over all dictionary entries of `sampleCount * channelCount`. -/
def sumLen (d : List TacDictEntry) : ℕ := (d.map entryDataLength).sum

/-- The byte output of `encode([[1]], 44100, "16-bit Int")`: RIFF/fmt/data
header and the single sample 1 stored as 0x7FFF little-endian. -/
def bs46 : List ℕ :=
  [82, 73, 70, 70, 38, 0, 0, 0, 87, 65, 86, 69, 102, 109, 116, 32, 16, 0, 0, 0,
   1, 0, 1, 0, 68, 172, 0, 0, 136, 88, 1, 0, 2, 0, 16, 0, 100, 97, 116, 97,
   2, 0, 0, 0, 255, 127]

/-- An entry whose data length (10 samples) overruns a 5-sample arena. -/
def entryA : TacDictEntry := ⟨0, 10, 44100, 1, 1, [97]⟩

/-- A valid entry ([3, 5) of a 5-sample arena). -/
def entryB : TacDictEntry := ⟨3, 2, 44100, 1, 1, [98]⟩

/-- A container holding `entryA` (invalid) and `entryB` (valid). -/
def cAB : TAC ℚ := ⟨32, [entryA, entryB], List.replicate 5 0⟩

/-! ## Claim theorems -/

/-- C3 (code bug): `wZero` has equal-length channels and all samples in
[-1, 1], so the doc comment of `hasValidSampleCount` accepts it and the
claim requires `writeEntry("a", wZero)` followed by `readEntry("a")` to
round-trip.  But the source checks `x >= 1 && x <= 1` instead of the
documented `x >= -1 && x <= 1`, so the buffer is rejected, nothing is
written, and `readEntry` returns the default `(44100, [])` instead of
`(48000, [[0]])`. -/
theorem c3_writeEntry_rejects_documented_range :
    wZero.hasValidSampleCountDoc = true ∧
    wZero.hasValidSampleCount = false ∧
    TAC.writeEntry TAC.empty aName wZero = TAC.empty ∧
    TAC.readEntry (TAC.writeEntry TAC.empty aName wZero) aName = (44100, []) ∧
    (44100, ([] : List (List ℚ))) ≠ (wZero.sampleRate, wZero.raw) := by
  refine ⟨by decide, by decide, by decide, by decide, by decide⟩

/-- C5 (code bug): on the bytes `[0x00, 0x80]` (the 16-bit sample -32768)
the repository's sample decoder `decoders.i16` returns the raw value
-32768 with no division, while the claim's formula — implemented by the
vendored `data_decoders.pcm16` — yields -32768 / 32768 = -1.  The
repository's own tests assert decoded samples lie in [-1, 1]. -/
theorem c5_readSample_returns_raw_value :
    RepoDec.getDecoder false 16 [0, 128] 0 = some (.finite (-32768)) ∧
    NodeWav.pcm16Val (some (-32768)) = .finite (-1) ∧
    (JsNum.finite (-32768)) ≠ (JsNum.finite (-1)) := by
  refine ⟨by decide, by norm_num [NodeWav.pcm16Val], by decide⟩

/-- C9 (code bug): a TAC file whose declared dictionary length (65536)
extends past its 8 available bytes makes `TAC.from` throw: the arena
`Float32Array` is constructed with a negative length *before* the
`try`/`catch` that the function's own corruption warning belongs to, so the
`RangeError` escapes instead of a partial container being returned. -/
theorem c9_from_throws_on_truncated_dict :
    TAC.from [0, 1, 0, 0, 0, 0, 0, 0] = .error .rangeError := by decide

/-- C4 (code bug): encoding the single-sample buffer `[[1]]` as 16-bit
integer produces `bs46`, and decoding `bs46` with the repository's decoder
(`src/binary/decode.ts`, the one `WAV.fromFile` uses) yields the raw sample
32767 rather than a value within 1/32767 of the original 1: the decoder
performs no magnitude division. -/
theorem c4_decode_encode_not_inverse :
    WavEnc.wavEncode [[1]] 44100 .int16 = .ok bs46 ∧
    RepoDec.decode bs46 = .ok (44100, [[.finite 32767]]) ∧
    ¬(|(32767 : ℚ) - 1| ≤ 1 / 32767) := by
  refine ⟨?_, ?_, by norm_num⟩
  · have h3 : ∀ (bs : List ℕ) (pos : ℕ), WavEnc.encI16 bs pos 1 = Bytes.setI16le bs pos 32767 := by
      intro bs pos
      unfold WavEnc.encI16
      rw [show jsRound (clamp 1 * 32767) = 32767 by norm_num [clamp, jsRound]]
    have h1 : WavEnc.interleave [[1]] = [1] := by decide
    simp only [WavEnc.wavEncode, WAVFormat.bits, WAVFormat.isFloat, WavEnc.getEncoder, h1]
    simp only [List.length_cons, List.length_nil, List.range_succ, List.range_zero,
      List.foldl_cons, List.foldl_nil, List.nil_append]
    norm_num [h3]
    decide
  · have hlen : bs46.length = 46 := by decide
    have hs44 : Bytes.i16le bs46 44 = some 32767 := by decide
    have hloop : ∀ (h : 0 < 1 * (16 / 8)),
        RepoDec.sampleLoop bs46 false 16 1 h 44 0 [[.finite 0]] = .ok [[.finite 32767]] := by
      intro h
      rw [RepoDec.sampleLoop.eq_def]
      norm_num [hlen, RepoDec.readFrame, RepoDec.getDecoder, RepoDec.decI16, hs44,
        orRange, RepoDec.store, List.range_succ, Except.bind, Bind.bind, pure, Except.pure]
      rw [RepoDec.sampleLoop.eq_def]
      simp [hlen]
    have h20 : Bytes.u16le bs46 20 = some 1 := by decide
    have h22 : Bytes.u16le bs46 22 = some 1 := by decide
    have h24 : Bytes.u32le bs46 24 = some 44100 := by decide
    have h32 : Bytes.u16le bs46 32 = some 2 := by decide
    have h34 : Bytes.u16le bs46 34 = some 16 := by decide
    simp [RepoDec.decode, h20, h22, h24, h32, h34, hlen, orRange, Except.bind,
      Bind.bind, pure, Except.pure, Functor.map, Except.map, hloop]

/-- C2 (counterexample): overwriting entry "a" does not behave like
`removeEntry("a")` followed by a fresh write.  After two writes of the same
one-sample buffer the arena holds two samples (the first write's sample is
orphaned), while remove-then-write leaves one. -/
theorem c2_overwrite_is_not_remove_then_append :
    cTwice.dataChunk = [1, 1] ∧
    (TAC.writeEntry (TAC.removeEntry cOnce aName) aName wOne).dataChunk = [1] ∧
    cTwice ≠ TAC.writeEntry (TAC.removeEntry cOnce aName) aName wOne := by
  refine ⟨by decide, by decide, by decide⟩

/-- C1 (counterexample): the container reached from the empty container by
the two `writeEntry` calls of `cTwice` (an overwrite) has entry lengths
summing to 1 but an arena of length 2, refuting the claimed invariant for
arbitrary `writeEntry`/`removeEntry` sequences. -/
theorem c1_sum_invariant_fails_after_overwrite :
    cTwice = TAC.writeEntry (TAC.writeEntry TAC.empty aName wOne) aName wOne ∧
    sumLen cTwice.dict = 1 ∧ cTwice.dataChunk.length = 2 := by
  refine ⟨rfl, by decide, by decide⟩

/-- C7 (counterexample): 44 zero bytes have wrong RIFF/WAVE magic, yet the
repository's decode — the decode operation `WAV.fromFile` actually calls —
returns a result without failing; only the vendored decoder raises. -/
theorem c7_repo_decode_ignores_bad_magic :
    (List.replicate 44 0).take 4 ≠ NodeWav.riffMagic ∧
    RepoDec.decode (List.replicate 44 0) = .ok (0, []) ∧
    NodeWav.decode (List.replicate 44 0) = .error .invalidWav := by
  refine ⟨by decide, by decide, by decide⟩

/-- C8 (counterexample): validating `cAB` (entry "a" overruns the 5-sample
arena, entry "b" is valid at offset 3) does not leave the other entry
untouched: removing "a" splices with "a"'s out-of-range length, emptying
the arena and shifting "b"'s offset to -7. -/
theorem c8_validate_corrupts_other_entries :
    (TAC.validate cAB).dict = [⟨-7, 2, 44100, 1, 1, [98]⟩] ∧
    (TAC.validate cAB).dataChunk = [] ∧
    entryB ∈ cAB.dict ∧ TAC.entryValid cAB.dataChunk.length entryB = true ∧
    entryB ∉ (TAC.validate cAB).dict := by
  refine ⟨by decide, by decide, by decide, by decide, by decide⟩

/-! ## Dictionary and subarray helper lemmas -/

theorem jsSubIdx_eq (len : ℕ) (i : ℤ) (h0 : 0 ≤ i) (h1 : i ≤ (len : ℤ)) :
    jsSubIdx len i = i.toNat := by
  unfold jsSubIdx
  rw [if_neg (by omega)]
  exact Nat.min_eq_left (Int.toNat_le.mpr h1)

theorem dictHas_eq_false_iff (d : List TacDictEntry) (n : List ℕ) :
    TAC.dictHas d n = false ↔ ∀ e ∈ d, (e.name == n) = false := by
  induction d with
  | nil => simp [TAC.dictHas]
  | cons a t ih =>
    simp only [TAC.dictHas, List.any_cons, Bool.or_eq_false_iff, List.mem_cons] at ih ⊢
    constructor
    · rintro ⟨h1, h2⟩ e (rfl | he)
      · exact h1
      · exact ih.mp h2 e he
    · intro h
      exact ⟨h a (Or.inl rfl), ih.mpr (fun e he => h e (Or.inr he))⟩

theorem mapDelete_of_not_has {d : List TacDictEntry} {n : List ℕ}
    (h : TAC.dictHas d n = false) : TAC.mapDelete d n = d := by
  unfold TAC.mapDelete
  apply List.filter_eq_self.mpr
  intro e he
  simp [(dictHas_eq_false_iff d n).mp h e he]

theorem dictHas_mapDelete (d : List TacDictEntry) (n : List ℕ) :
    TAC.dictHas (TAC.mapDelete d n) n = false := by
  rw [dictHas_eq_false_iff]
  intro e he
  have := List.of_mem_filter he
  simpa using this

/-- A valid-buffer `writeEntry` in closed form: the dictionary entry for
the name (if any) is deleted, the new entry is appended, and the channels
are appended to the arena. -/
theorem writeEntry_closed_form (c : TAC ℚ) (n : List ℕ) (w : Wav)
    (hw : w.hasValidSampleCount = true) :
    TAC.writeEntry c n w =
      { dictLength := c.dictLength + (15 + n.length : ℕ)
        dict := TAC.mapDelete c.dict n ++
          [⟨(c.dataChunk.length : ℤ), (w.raw.headD []).length, w.sampleRate, w.raw.length,
            n.length, n⟩]
        dataChunk := c.dataChunk ++ w.raw.flatten } := by
  unfold TAC.writeEntry
  rw [hw]
  simp only [Bool.not_true, Bool.false_eq_true, if_false]
  by_cases hhas : TAC.dictHas c.dict n = true
  · rw [if_pos hhas]
    unfold TAC.mapSet
    rw [dictHas_mapDelete c.dict n]
    simp
  · have hf : TAC.dictHas c.dict n = false := by simpa using hhas
    rw [if_neg (by simp [hf])]
    unfold TAC.mapSet
    rw [mapDelete_of_not_has hf]
    simp [hf]

/-- C2 (amended): for a valid buffer, overwriting equals a fresh write on
the container whose dictionary entry for the name was deleted *without*
touching the arena; the arena becomes the old arena plus the buffer's
channel-major samples (old samples are preserved, i.e. orphaned when the
name existed), and the new entry is appended with offset equal to the prior
arena length while all other entries survive unchanged and in order. -/
theorem c2_overwrite_deletes_dict_entry_only (c : TAC ℚ) (n : List ℕ) (w : Wav)
    (hw : w.hasValidSampleCount = true) :
    TAC.writeEntry c n w = TAC.writeEntry { c with dict := TAC.mapDelete c.dict n } n w ∧
    (TAC.writeEntry c n w).dataChunk = c.dataChunk ++ w.raw.flatten ∧
    (TAC.writeEntry c n w).dict = TAC.mapDelete c.dict n ++
      [⟨(c.dataChunk.length : ℤ), (w.raw.headD []).length, w.sampleRate, w.raw.length,
        n.length, n⟩] := by
  have hdel : TAC.mapDelete (TAC.mapDelete c.dict n) n = TAC.mapDelete c.dict n :=
    mapDelete_of_not_has (dictHas_mapDelete c.dict n)
  rw [writeEntry_closed_form c n w hw,
    writeEntry_closed_form { c with dict := TAC.mapDelete c.dict n } n w hw]
  simp [hdel]

/-- Witness for C2's amended theorem at the concrete overwrite of `cOnce`. -/
theorem c2_overwrite_deletes_dict_entry_only_witness :
    wOne.hasValidSampleCount = true ∧
    (TAC.writeEntry cOnce aName wOne =
        TAC.writeEntry { cOnce with dict := TAC.mapDelete cOnce.dict aName } aName wOne ∧
      (TAC.writeEntry cOnce aName wOne).dataChunk = cOnce.dataChunk ++ wOne.raw.flatten ∧
      (TAC.writeEntry cOnce aName wOne).dict = TAC.mapDelete cOnce.dict aName ++
        [⟨(cOnce.dataChunk.length : ℤ), (wOne.raw.headD []).length, wOne.sampleRate,
          wOne.raw.length, aName.length, aName⟩]) :=
  ⟨by decide, c2_overwrite_deletes_dict_entry_only cOnce aName wOne (by decide)⟩

/-- Mapping a name-preserving function over a dictionary commutes with
filtering a name away. -/
theorem filter_name_map_comm (d : List TacDictEntry) (f : TacDictEntry → TacDictEntry)
    (hf : ∀ e, (f e).name = e.name) (n : List ℕ) :
    (d.map f).filter (fun e => !(e.name == n)) =
      (d.filter (fun e => !(e.name == n))).map f := by
  induction d with
  | nil => rfl
  | cons a t ih =>
    simp only [List.map_cons, List.filter_cons, hf a]
    by_cases h : (a.name == n) = true
    · simp [h, ih]
    · simp only [Bool.not_eq_true] at h
      simp [h, ih]

/-- The arena after removing an in-range entry is exactly the arena with
that entry's sample range spliced out. -/
theorem removeEntry_splice {α : Type} (c : TAC α) (n : List ℕ) (r : TacDictEntry)
    (hget : TAC.dictGet c.dict n = some r)
    (h0 : 0 ≤ r.indexOffset)
    (hle : r.indexOffset + (entryDataLength r : ℤ) ≤ (c.dataChunk.length : ℤ)) :
    (TAC.removeEntry c n).dataChunk =
      c.dataChunk.take r.indexOffset.toNat ++
      c.dataChunk.drop (r.indexOffset.toNat + entryDataLength r) := by
  have hoffle : r.indexOffset ≤ (c.dataChunk.length : ℤ) := by
    have : (0 : ℤ) ≤ (entryDataLength r : ℤ) := Int.natCast_nonneg _
    omega
  simp only [TAC.removeEntry, hget]
  unfold jsSubarray jsSubarrayFrom
  rw [jsSubIdx_eq _ 0 le_rfl (Int.natCast_nonneg _),
    jsSubIdx_eq _ r.indexOffset h0 hoffle,
    jsSubIdx_eq _ (r.indexOffset + (entryDataLength r : ℕ)) (by omega) (by exact_mod_cast hle)]
  simp only [Int.toNat_zero, List.drop_zero, Int.toNat_add h0 (Int.natCast_nonneg _),
    Int.toNat_natCast]

/-- The dictionary after a removal: the name filtered away, larger offsets
decremented by the removed data length, everything else untouched. -/
theorem removeEntry_dict {α : Type} (c : TAC α) (n : List ℕ) (r : TacDictEntry)
    (hget : TAC.dictGet c.dict n = some r) :
    (TAC.removeEntry c n).dict =
      (c.dict.filter (fun e => !(e.name == n))).map (fun e =>
        if r.indexOffset < e.indexOffset then
          { e with indexOffset := e.indexOffset - (entryDataLength r : ℤ) }
        else e) := by
  simp only [TAC.removeEntry, hget]
  exact filter_name_map_comm c.dict _
    (fun e => by by_cases h : r.indexOffset < e.indexOffset <;> simp [h]) n

/-- C6: on a container whose entries all lie inside the arena, removing a
present name splices exactly that entry's sample range out of the arena and
decreases the offset of every entry with a larger offset by exactly the
removed data length (all other fields unchanged, order preserved), while
removing an absent name changes nothing. -/
theorem c6_removeEntry_splices_and_rebases {α : Type} (c : TAC α) (n m : List ℕ)
    (r : TacDictEntry)
    (hwf : ∀ e ∈ c.dict, 0 ≤ e.indexOffset ∧
      e.indexOffset + (entryDataLength e : ℤ) ≤ (c.dataChunk.length : ℤ))
    (hr : TAC.dictGet c.dict n = some r)
    (hm : TAC.dictGet c.dict m = none) :
    (TAC.removeEntry c n).dataChunk =
      c.dataChunk.take r.indexOffset.toNat ++
      c.dataChunk.drop (r.indexOffset.toNat + entryDataLength r) ∧
    (TAC.removeEntry c n).dict =
      (c.dict.filter (fun e => !(e.name == n))).map (fun e =>
        if r.indexOffset < e.indexOffset then
          { e with indexOffset := e.indexOffset - (entryDataLength r : ℤ) }
        else e) ∧
    TAC.removeEntry c m = c := by
  have hrmem : r ∈ c.dict := List.mem_of_find?_eq_some hr
  obtain ⟨h0, hle⟩ := hwf r hrmem
  refine ⟨removeEntry_splice c n r hr h0 hle, removeEntry_dict c n r hr, ?_⟩
  simp only [TAC.removeEntry, hm]

/-- A two-entry container with ranges [0,1) and [1,2) over a 2-sample arena. -/
def cab2 : TAC ℚ := ⟨32, [⟨0, 1, 44100, 1, 1, [97]⟩, ⟨1, 1, 44100, 1, 1, [98]⟩], [1, 1]⟩

/-- Witness for C6 at `cab2`: removing "a" splices [0,1) and shifts "b";
removing the absent "c" is a no-op. -/
theorem c6_removeEntry_splices_and_rebases_witness :
    (∀ e ∈ cab2.dict, 0 ≤ e.indexOffset ∧
      e.indexOffset + (entryDataLength e : ℤ) ≤ (cab2.dataChunk.length : ℤ)) ∧
    TAC.dictGet cab2.dict aName = some ⟨0, 1, 44100, 1, 1, [97]⟩ ∧
    TAC.dictGet cab2.dict [99] = none ∧
    ((TAC.removeEntry cab2 aName).dataChunk =
        cab2.dataChunk.take (0 : ℤ).toNat ++
        cab2.dataChunk.drop ((0 : ℤ).toNat + entryDataLength ⟨0, 1, 44100, 1, 1, [97]⟩) ∧
      (TAC.removeEntry cab2 aName).dict =
        (cab2.dict.filter (fun e => !(e.name == aName))).map (fun e =>
          if (0 : ℤ) < e.indexOffset then
            { e with indexOffset := e.indexOffset - (entryDataLength ⟨0, 1, 44100, 1, 1, [97]⟩ : ℤ) }
          else e) ∧
      TAC.removeEntry cab2 [99] = cab2) :=
  ⟨by decide, by decide, by decide,
    c6_removeEntry_splices_and_rebases cab2 aName [99] ⟨0, 1, 44100, 1, 1, [97]⟩
      (by decide) (by decide) (by decide)⟩

/-- `clamp 0 = 0` (used when a missing interleave sample reads as 0). -/
theorem clamp_zero : clamp 0 = 0 := by norm_num [clamp]

/-- `getD` of a clamped channel is the clamp of `getD` (defaults agree since
`clamp 0 = 0`). -/
theorem getD_map_clamp (l : List ℚ) (i : ℕ) :
    (l.map clamp).getD i 0 = clamp (l.getD i 0) := by
  simp only [List.getD_eq_getElem?_getD, List.getElem?_map]
  cases h : l[i]? with
  | none => simp [clamp_zero]
  | some v => simp

/-- Interleaving clamped channels is the clamped interleaving. -/
theorem interleave_map_clamp (cd : List (List ℚ)) :
    WavEnc.interleave (cd.map (List.map clamp)) = (WavEnc.interleave cd).map clamp := by
  unfold WavEnc.interleave
  cases cd with
  | nil => rfl
  | cons c0 t =>
    simp only [List.map_cons, List.head?_cons, Option.getD_some, List.length_map,
      List.map_flatMap]
    congr 1
    funext i
    simp only [List.map_cons, List.map_map]
    congr 1
    · exact getD_map_clamp c0 i
    · apply List.map_congr_left
      intro ch _
      simp only [Function.comp_apply]
      exact getD_map_clamp ch i

/-- Every entry of the encoder table reads its value only through `clamp`. -/
theorem getEncoder_clamp (float : Bool) (bits : ℕ) (bs : List ℕ) (pos : ℕ) (x : ℚ) :
    WavEnc.getEncoder float bits bs pos (clamp x) = WavEnc.getEncoder float bits bs pos x := by
  have h8 : WavEnc.encI8 bs pos (clamp x) = WavEnc.encI8 bs pos x := by
    unfold WavEnc.encI8; rw [clamp_idem]
  have h16 : WavEnc.encI16 bs pos (clamp x) = WavEnc.encI16 bs pos x := by
    unfold WavEnc.encI16; rw [clamp_idem]
  have h24 : WavEnc.encI24 bs pos (clamp x) = WavEnc.encI24 bs pos x := by
    unfold WavEnc.encI24; rw [clamp_idem]
  have h32 : WavEnc.encI32 bs pos (clamp x) = WavEnc.encI32 bs pos x := by
    unfold WavEnc.encI32; rw [clamp_idem]
  have hf32 : WavEnc.encF32 bs pos (clamp x) = WavEnc.encF32 bs pos x := by
    unfold WavEnc.encF32; rw [clamp_idem]
  unfold WavEnc.getEncoder
  split_ifs <;> first
    | exact h8 | exact h16 | exact h24 | exact h32 | exact hf32

/-- C10: the per-sample encoders clamp their input to [-1, 1] before
scaling, so the WAV encoder's byte output is unchanged when every sample of
every channel is pre-clamped. -/
theorem c10_encoders_clamp_before_scaling :
    (∀ (float : Bool) (bits : ℕ) (bs : List ℕ) (pos : ℕ) (x : ℚ),
      WavEnc.getEncoder float bits bs pos (clamp x) =
        WavEnc.getEncoder float bits bs pos x) ∧
    ∀ (cd : List (List ℚ)) (rate : ℕ) (fmt : WAVFormat),
      WavEnc.wavEncode (cd.map (List.map clamp)) rate fmt = WavEnc.wavEncode cd rate fmt := by
  refine ⟨getEncoder_clamp, ?_⟩
  intro cd rate fmt
  cases cd with
  | nil => rfl
  | cons c0 t =>
    have hint : WavEnc.interleave (List.map clamp c0 :: List.map (List.map clamp) t) =
        (WavEnc.interleave (c0 :: t)).map clamp := by
      simpa using interleave_map_clamp (c0 :: t)
    unfold WavEnc.wavEncode
    simp only [List.map_cons, List.length_cons, List.length_map, hint]
    congr 1
    apply List.foldl_ext
    intro b i _
    rw [getD_map_clamp, getEncoder_clamp]

/-- `normName` is the identity on entries whose `nameLength` matches a name
of at most 256 bytes. -/
theorem normName_eq_self (e : TacDictEntry) (h1 : e.nameLength = e.name.length)
    (h2 : e.name.length ≤ 256) : TAC.normName e = e := by
  unfold TAC.normName
  rw [if_neg (by omega), ← h1]

/-- With consistent names, the normalisation pass of `validate` leaves the
dictionary unchanged. -/
theorem map_normName_eq_self (d : List TacDictEntry)
    (hnames : ∀ e ∈ d, e.nameLength = e.name.length ∧ e.name.length ≤ 256) :
    d.map TAC.normName = d := by
  rw [List.map_congr_left (fun e he => normName_eq_self e (hnames e he).1 (hnames e he).2)]
  exact List.map_id _

/-- A filter that accepts exactly one element of a name-nodup dictionary
returns that element alone. -/
theorem filter_eq_single (l : List TacDictEntry) (p : TacDictEntry → Bool)
    (r : TacDictEntry) (hr : r ∈ l) (hpr : p r = true)
    (hother : ∀ e ∈ l, e ≠ r → p e = false)
    (hnd : (l.map (·.name)).Nodup) : l.filter p = [r] := by
  induction l with
  | nil => cases hr
  | cons a t ih =>
    simp only [List.map_cons, List.nodup_cons] at hnd
    by_cases hae : a = r
    · rw [List.filter_cons_of_pos (by rw [hae]; exact hpr)]
      have ht : t.filter p = [] := by
        apply List.filter_eq_nil_iff.mpr
        intro e he
        have hne : e ≠ r := by
          intro heq2
          apply hnd.1
          apply List.mem_map.mpr
          exact ⟨e, he, by rw [heq2, hae]⟩
        simp [hother e (List.mem_cons_of_mem _ he) hne]
      rw [ht, hae]
    · have hrt : r ∈ t := by
        rcases List.mem_cons.mp hr with h | h
        · exact absurd h.symm hae
        · exact h
      rw [List.filter_cons_of_neg (by simp [hother a (List.mem_cons_self a t) hae])]
      exact ih hrt (fun e he hne => hother e (List.mem_cons_of_mem a he) hne) hnd.2

/-- In a name-nodup dictionary, `dict.get` at a member's name returns that
member. -/
theorem dictGet_of_nodup (l : List TacDictEntry) (r : TacDictEntry) (hr : r ∈ l)
    (hnd : (l.map (·.name)).Nodup) : TAC.dictGet l r.name = some r := by
  induction l with
  | nil => cases hr
  | cons a t ih =>
    simp only [List.map_cons, List.nodup_cons] at hnd
    unfold TAC.dictGet at ih ⊢
    rw [List.find?_cons]
    by_cases hae : a = r
    · rw [show (a.name == r.name) = true from by simp [hae]]
      simp [hae]
    · have hrt : r ∈ t := by
        rcases List.mem_cons.mp hr with h | h
        · exact absurd h.symm hae
        · exact h
      rw [show (a.name == r.name) = false from by
        simp only [beq_eq_false_iff_ne, ne_eq]
        intro heq
        exact hnd.1 (List.mem_map.mpr ⟨r, hrt, heq.symm⟩)]
      exact ih hrt hnd.2

/-- Removing an entry whose offset is at least the arena length leaves the
arena untouched and no other in-range entry shifted. -/
theorem removeEntry_out_of_range {α : Type} (c : TAC α) (r : TacDictEntry)
    (hget : TAC.dictGet c.dict r.name = some r)
    (hoff : (c.dataChunk.length : ℤ) ≤ r.indexOffset)
    (hrest : ∀ e ∈ c.dict, e ≠ r → TAC.entryValid c.dataChunk.length e = true) :
    TAC.removeEntry c r.name =
      { dictLength := c.dictLength - (15 + r.name.length : ℕ)
        dict := c.dict.filter (fun e => !(e.name == r.name))
        dataChunk := c.dataChunk } := by
  simp only [TAC.removeEntry, hget]
  have h0N : (0 : ℤ) ≤ (c.dataChunk.length : ℤ) := Int.natCast_nonneg _
  have harena :
      jsSubarray c.dataChunk 0 r.indexOffset ++
        jsSubarrayFrom c.dataChunk (r.indexOffset + (entryDataLength r : ℕ)) = c.dataChunk := by
    unfold jsSubarray jsSubarrayFrom jsSubIdx
    rw [if_neg (by omega), if_neg (by omega), if_neg (by omega)]
    have h1 : c.dataChunk.length ≤ r.indexOffset.toNat := Int.le_toNat (by omega) |>.mpr hoff
    have h2 : c.dataChunk.length ≤ (r.indexOffset + (entryDataLength r : ℕ)).toNat := by
      rw [Int.le_toNat (by omega)]
      omega
    rw [show r.indexOffset.toNat.min c.dataChunk.length = c.dataChunk.length from by
        unfold Nat.min; exact inf_eq_right.mpr h1,
      show (r.indexOffset + (entryDataLength r : ℕ)).toNat.min c.dataChunk.length =
        c.dataChunk.length from by unfold Nat.min; exact inf_eq_right.mpr h2,
      show (Int.toNat 0).min c.dataChunk.length = 0 from by
        rw [Int.toNat_zero]; unfold Nat.min; exact inf_eq_left.mpr (Nat.zero_le _)]
    simp
  rw [harena]
  have hdict : (c.dict.map (fun e =>
      if r.indexOffset < e.indexOffset then
        { e with indexOffset := e.indexOffset - (entryDataLength r : ℕ) }
      else e)).filter (fun e => !(e.name == r.name)) =
      c.dict.filter (fun e => !(e.name == r.name)) := by
    rw [filter_name_map_comm c.dict _
      (fun e => by by_cases h : r.indexOffset < e.indexOffset <;> simp [h]) r.name]
    have : ∀ e ∈ c.dict.filter (fun e => !(e.name == r.name)),
        (if r.indexOffset < e.indexOffset then
          { e with indexOffset := e.indexOffset - (entryDataLength r : ℕ) }
        else e) = e := by
      intro e he
      have hmem := List.mem_of_mem_filter he
      have hname := List.of_mem_filter he
      have hne : e ≠ r := by
        intro heq
        simp [heq] at hname
      have hv := hrest e hmem hne
      unfold TAC.entryValid at hv
      simp only [Bool.and_eq_true, Bool.not_eq_true', decide_eq_false_iff_not, not_le,
        not_lt] at hv
      rw [if_neg (by omega)]
    rw [List.map_congr_left this]
    simp
  rw [hdict]

/-- A pass of `validate` over a container with consistent names and only
valid entries changes nothing and removes nothing. -/
theorem validatePass_all_valid {α : Type} (c : TAC α)
    (hnames : ∀ e ∈ c.dict, e.nameLength = e.name.length ∧ e.name.length ≤ 256)
    (hv : ∀ e ∈ c.dict, TAC.entryValid c.dataChunk.length e = true) :
    TAC.validatePass c = (c, false) := by
  unfold TAC.validatePass
  rw [map_normName_eq_self _ hnames]
  have hfil : c.dict.filter (fun e => !(TAC.entryValid c.dataChunk.length e)) = [] := by
    apply List.filter_eq_nil_iff.mpr
    intro e he
    simp [hv e he]
  simp only [hfil]
  simp

/-- A pass of `validate` over a container with consistent names whose single
invalid entry sits at or beyond the arena length removes exactly it. -/
theorem validatePass_single_out_of_range {α : Type} (c : TAC α) (r : TacDictEntry)
    (hnames : ∀ e ∈ c.dict, e.nameLength = e.name.length ∧ e.name.length ≤ 256)
    (hnd : (c.dict.map (·.name)).Nodup)
    (hrmem : r ∈ c.dict)
    (hrbad : TAC.entryValid c.dataChunk.length r = false)
    (hrest : ∀ e ∈ c.dict, e ≠ r → TAC.entryValid c.dataChunk.length e = true)
    (hoff : (c.dataChunk.length : ℤ) ≤ r.indexOffset) :
    TAC.validatePass c =
      ({ dictLength := c.dictLength - (15 + r.name.length : ℕ)
         dict := c.dict.filter (fun e => !(e.name == r.name))
         dataChunk := c.dataChunk }, true) := by
  unfold TAC.validatePass
  rw [map_normName_eq_self _ hnames]
  have hfil : c.dict.filter (fun e => !(TAC.entryValid c.dataChunk.length e)) = [r] := by
    apply filter_eq_single c.dict _ r hrmem (by simp [hrbad]) ?_ hnd
    intro e he hne
    simp [hrest e he hne]
  simp only [hfil, List.map_cons, List.map_nil, List.foldl_cons, List.foldl_nil,
    List.isEmpty_cons, Bool.not_false]
  have hc : ({ dictLength := c.dictLength, dict := c.dict, dataChunk := c.dataChunk } : TAC α) = c := rfl
  rw [hc, removeEntry_out_of_range c r (dictGet_of_nodup c.dict r hrmem hnd) hoff hrest]

/-- C8 (amended): with consistent entry names, a container whose single
invalid entry has an offset at or beyond the arena length validates to the
container with exactly that entry removed: every other entry is untouched,
the arena is unchanged, the cached dictionary byte length drops by the
removed entry's size, and the second (and final, by the alreadyValidated
flag) pass removes nothing further. -/
theorem c8_validate_single_out_of_range {α : Type} (c : TAC α) (r : TacDictEntry)
    (hnames : ∀ e ∈ c.dict, e.nameLength = e.name.length ∧ e.name.length ≤ 256)
    (hnd : (c.dict.map (·.name)).Nodup)
    (hrmem : r ∈ c.dict)
    (hrbad : TAC.entryValid c.dataChunk.length r = false)
    (hrest : ∀ e ∈ c.dict, e ≠ r → TAC.entryValid c.dataChunk.length e = true)
    (hoff : (c.dataChunk.length : ℤ) ≤ r.indexOffset) :
    TAC.validate c =
      { dictLength := c.dictLength - (15 + r.name.length : ℕ)
        dict := c.dict.filter (fun e => !(e.name == r.name))
        dataChunk := c.dataChunk } := by
  have hpass := validatePass_single_out_of_range c r hnames hnd hrmem hrbad hrest hoff
  set c2 : TAC α :=
    { dictLength := c.dictLength - (15 + r.name.length : ℕ)
      dict := c.dict.filter (fun e => !(e.name == r.name))
      dataChunk := c.dataChunk } with hc2
  have hpass2 : TAC.validatePass c2 = (c2, false) := by
    apply validatePass_all_valid
    · intro e he
      rw [hc2] at he
      exact hnames e (List.mem_of_mem_filter he)
    · intro e he
      rw [hc2] at he
      have hmem := List.mem_of_mem_filter he
      have hname := List.of_mem_filter he
      have hne : e ≠ r := by
        intro heq
        simp [heq] at hname
      simpa [hc2] using hrest e hmem hne
  unfold TAC.validate TAC.validateAux
  rw [hpass]
  simpa using congrArg Prod.fst hpass2

/-- A container whose entry "b" is out of range (offset 5 in a 1-sample
arena) next to the valid entry "a". -/
def cW8 : TAC ℚ := ⟨32, [⟨0, 1, 44100, 1, 1, [97]⟩, ⟨5, 2, 44100, 1, 1, [98]⟩], [1]⟩

/-- Witness for C8's amended theorem at `cW8`. -/
theorem c8_validate_single_out_of_range_witness :
    ((∀ e ∈ cW8.dict, e.nameLength = e.name.length ∧ e.name.length ≤ 256) ∧
      (cW8.dict.map (·.name)).Nodup ∧
      (⟨5, 2, 44100, 1, 1, [98]⟩ : TacDictEntry) ∈ cW8.dict ∧
      TAC.entryValid cW8.dataChunk.length ⟨5, 2, 44100, 1, 1, [98]⟩ = false ∧
      (∀ e ∈ cW8.dict, e ≠ ⟨5, 2, 44100, 1, 1, [98]⟩ →
        TAC.entryValid cW8.dataChunk.length e = true) ∧
      (cW8.dataChunk.length : ℤ) ≤ (5 : ℤ)) ∧
    TAC.validate cW8 =
      { dictLength := cW8.dictLength - (15 + ([98] : List ℕ).length : ℕ)
        dict := cW8.dict.filter (fun e => !(e.name == [98]))
        dataChunk := cW8.dataChunk } :=
  ⟨⟨by decide, by decide, by decide, by decide, by decide, by decide⟩,
    c8_validate_single_out_of_range cW8 ⟨5, 2, 44100, 1, 1, [98]⟩
      (by decide) (by decide) (by decide) (by decide) (by decide) (by decide)⟩

/-! ## The vendored decoder: FormatError behaviour (C7) -/

theorem exists_four (l : List ℕ) (h : 4 ≤ l.length) :
    ∃ a b c d t, l = a :: b :: c :: d :: t := by
  match l with
  | a :: b :: c :: d :: t => exact ⟨a, b, c, d, t, rfl⟩
  | [] => norm_num at h
  | [a] => norm_num at h
  | [a, b] => norm_num at h
  | [a, b, c] => norm_num at h

theorem read4_eq (bs : List ℕ) (p : ℕ) (h : p + 4 ≤ bs.length) :
    NodeWav.read4 bs p = some ((bs.drop p).take 4) := by
  obtain ⟨a, b, c, d, t, hd⟩ := exists_four (bs.drop p) (by rw [List.length_drop]; omega)
  have hge : ∀ j : ℕ, bs[p + j]? = (bs.drop p)[j]? := by
    intro j
    rw [List.getElem?_drop]
  unfold NodeWav.read4 Bytes.u8
  rw [show p + 1 = p + 1 from rfl]
  rw [show bs[p]? = (bs.drop p)[0]? from by rw [← hge 0]; rfl,
    show bs[p + 1]? = (bs.drop p)[1]? from hge 1,
    show bs[p + 2]? = (bs.drop p)[2]? from hge 2,
    show bs[p + 3]? = (bs.drop p)[3]? from hge 3, hd]
  simp

theorem c7_badmagic (bs : List ℕ) (hlen : 12 ≤ bs.length)
    (hbad : bs.take 4 ≠ NodeWav.riffMagic ∨ (bs.drop 8).take 4 ≠ NodeWav.waveMagic) :
    NodeWav.decode bs = .error .invalidWav := by
  have h0 : NodeWav.read4 bs 0 = some (bs.take 4) := by
    have := read4_eq bs 0 (by omega)
    simpa using this
  have h8 : NodeWav.read4 bs 8 = some ((bs.drop 8).take 4) := read4_eq bs 8 (by omega)
  unfold NodeWav.decode
  rcases hbad with hb | hb
  · simp [h0, orRange, Except.bind, Bind.bind, hb]
  · by_cases hriff : bs.take 4 = NodeWav.riffMagic
    · have h4 : (Bytes.u32le bs 4).isSome := by
        unfold Bytes.u32le Bytes.u16le Bytes.u8
        rw [List.getElem?_eq_getElem (by omega), List.getElem?_eq_getElem (by omega),
          List.getElem?_eq_getElem (by omega), List.getElem?_eq_getElem (by omega)]
        rfl
      obtain ⟨v4, hv4⟩ := Option.isSome_iff_exists.mp h4
      simp [h0, h8, hv4, orRange, Except.bind, Bind.bind, hriff, hb]
    · simp [h0, orRange, Except.bind, Bind.bind, hriff]

theorem orRange_bind_error {α β : Type} {o : Option α} {f : α → Except JsErr β} {e : JsErr}
    (h : (orRange o >>= f) = .error e) (hne : e ≠ .rangeError) :
    ∃ v, o = some v ∧ f v = .error e := by
  cases o with
  | none => simp [orRange, Bind.bind, Except.bind] at h; exact absurd h.symm hne
  | some v => exact ⟨v, rfl, by simpa [orRange, Bind.bind, Except.bind] using h⟩

theorem decodeData_errors (b : ℕ) (fl : Bool) (bytes : List ℕ) (off ch smp : ℕ) (e : JsErr)
    (h : NodeWav.decodeData b fl bytes off ch smp = .error e) :
    e = .rangeError ∨ e = .unsupportedData := by
  unfold NodeWav.decodeData at h
  split at h <;>
    simp_all only [Bind.bind, Except.bind] <;>
    first
      | (split at h <;> simp_all)
      | simp_all
  all_goals (rename_i heq; split at heq <;> simp_all)

theorem chunkWalk_unsupportedFmt (bytes : List ℕ) :
    ∀ (n pos : ℕ) (fmt : Option NodeWav.Fmt) (k : ℕ), bytes.length - pos = n →
      NodeWav.chunkWalk bytes pos fmt = .error (.unsupportedFmt k) → k ≠ 1 ∧ k ≠ 3 := by
  intro n
  induction n using Nat.strong_induction_on with
  | _ n ih =>
    intro pos fmt k hn hcw
    rw [NodeWav.chunkWalk.eq_def] at hcw
    by_cases hp : pos < bytes.length
    swap
    · rw [dif_neg hp] at hcw
      cases hcw
    rw [dif_pos hp] at hcw
    obtain ⟨tag, htag, hcw⟩ := orRange_bind_error hcw (by simp)
    obtain ⟨size, hsize, hcw⟩ := orRange_bind_error hcw (by simp)
    by_cases ht : tag = NodeWav.fmtTag
    · rw [if_pos ht] at hcw
      obtain ⟨fid, hfid, hcw⟩ := orRange_bind_error hcw (by simp)
      by_cases hgood : fid ≠ 1 ∧ fid ≠ 3
      · rw [if_pos hgood] at hcw
        obtain ⟨rfl⟩ : fid = k := by
          simpa using hcw
        exact hgood
      · rw [if_neg hgood] at hcw
        obtain ⟨ch, hch, hcw⟩ := orRange_bind_error hcw (by simp)
        obtain ⟨sr, hsr, hcw⟩ := orRange_bind_error hcw (by simp)
        obtain ⟨br, hbr, hcw⟩ := orRange_bind_error hcw (by simp)
        obtain ⟨bls, hbls, hcw⟩ := orRange_bind_error hcw (by simp)
        obtain ⟨bd, hbd, hcw⟩ := orRange_bind_error hcw (by simp)
        exact ih (bytes.length - (pos + 8 + size)) (by omega) (pos + 8 + size) _ k rfl hcw
    · rw [if_neg ht] at hcw
      by_cases hd : tag = NodeWav.dataTag
      · rw [if_pos hd] at hcw
        revert hcw
        cases fmt with
        | none => intro hcw; simp at hcw
        | some f =>
          intro hcw
          simp only [Bind.bind, Except.bind, pure, Except.pure] at hcw
          split at hcw
          · split at hcw
            · split at hcw
              · rename_i e' heqd
                rw [show e' = JsErr.unsupportedFmt k from by simpa using hcw] at heqd
                rcases decodeData_errors _ _ _ _ _ _ _ heqd with h | h <;>
                  exact JsErr.noConfusion h
              · simp at hcw
            · simp at hcw
          · split at hcw
            · rename_i e' heqd
              rw [show e' = JsErr.unsupportedFmt k from by simpa using hcw] at heqd
              rcases decodeData_errors _ _ _ _ _ _ _ heqd with h | h <;>
                exact JsErr.noConfusion h
            · simp at hcw
      · rw [if_neg hd] at hcw
        exact ih (bytes.length - (pos + 8 + size)) (by omega) (pos + 8 + size) fmt k rfl hcw

theorem u16le_some (bs : List ℕ) (p : ℕ) (h : p + 2 ≤ bs.length) :
    ∃ v, Bytes.u16le bs p = some v := by
  unfold Bytes.u16le Bytes.u8
  rw [List.getElem?_eq_getElem (by omega), List.getElem?_eq_getElem (by omega)]
  exact ⟨_, rfl⟩

theorem u32le_some (bs : List ℕ) (p : ℕ) (h : p + 4 ≤ bs.length) :
    ∃ v, Bytes.u32le bs p = some v := by
  obtain ⟨a, ha⟩ := u16le_some bs p (by omega)
  obtain ⟨b, hb⟩ := u16le_some bs (p + 2) (by omega)
  unfold Bytes.u32le
  rw [ha, hb]
  exact ⟨_, rfl⟩

/-- The byte-level well-formedness of a canonical 44-byte-header WAV file,
as this package's encoder lays it out: RIFF/WAVE magic, a 16-byte fmt chunk
at offset 12 with a supported format code and bit depth, a consistent block
align, and a data chunk at offset 36 spanning the rest of the file. -/
def WellFormedWav (bs : List ℕ) : Prop :=
  44 ≤ bs.length ∧
  bs.take 4 = NodeWav.riffMagic ∧
  (bs.drop 8).take 4 = NodeWav.waveMagic ∧
  (bs.drop 12).take 4 = NodeWav.fmtTag ∧
  (bs.drop 36).take 4 = NodeWav.dataTag ∧
  Bytes.u32le bs 16 = some 16 ∧
  (((Bytes.u16le bs 20).getD 0 = 1 ∧
      ((Bytes.u16le bs 34).getD 0 = 8 ∨ (Bytes.u16le bs 34).getD 0 = 16 ∨
        (Bytes.u16le bs 34).getD 0 = 24 ∨ (Bytes.u16le bs 34).getD 0 = 32)) ∨
    ((Bytes.u16le bs 20).getD 0 = 3 ∧ (Bytes.u16le bs 34).getD 0 = 32)) ∧
  1 ≤ (Bytes.u16le bs 22).getD 0 ∧
  (Bytes.u16le bs 32).getD 0 =
    (Bytes.u16le bs 22).getD 0 * ((Bytes.u16le bs 34).getD 0 / 8) ∧
  44 + (Bytes.u32le bs 40).getD 0 = bs.length ∧
  (bs.length - 44) % ((Bytes.u16le bs 34).getD 0 / 8) = 0

instance : DecidablePred WellFormedWav := fun bs => by
  unfold WellFormedWav
  infer_instance

theorem decodeData_ok (bits : ℕ) (fl : Bool) (bytes : List ℕ) (ch smp : ℕ)
    (hlen : 44 ≤ bytes.length)
    (hsupp : (fl = false ∧ (bits = 8 ∨ bits = 16 ∨ bits = 24 ∨ bits = 32)) ∨
      (fl = true ∧ bits = 32))
    (hmod : (bytes.length - 44) % (bits / 8) = 0) :
    ∃ out, NodeWav.decodeData bits fl bytes 44 ch smp = .ok out := by
  rcases hsupp with ⟨rfl, hb | hb | hb | hb⟩ | ⟨rfl, hb⟩ <;> subst hb <;>
    unfold NodeWav.decodeData <;>
    simp only [Bind.bind, Except.bind] <;>
    norm_num <;>
    first
      | exact ⟨_, rfl⟩
      | (rw [if_pos (by omega)]; exact ⟨_, rfl⟩)

theorem nodeWav_decode_ok_of_wellFormed (bs : List ℕ) (h : WellFormedWav bs) :
    ∃ r, NodeWav.decode bs = .ok r := by
  obtain ⟨hlen, hriff, hwave, hfmt4, hdata4, h16, hcode, hch, hba, hdsz, hmod⟩ := h
  obtain ⟨code, hcodeE⟩ := u16le_some bs 20 (by omega)
  obtain ⟨ch, hchE⟩ := u16le_some bs 22 (by omega)
  obtain ⟨sr, hsrE⟩ := u32le_some bs 24 (by omega)
  obtain ⟨br, hbrE⟩ := u32le_some bs 28 (by omega)
  obtain ⟨ba, hbaE⟩ := u16le_some bs 32 (by omega)
  obtain ⟨bits, hbitsE⟩ := u16le_some bs 34 (by omega)
  obtain ⟨dsz, hdszE⟩ := u32le_some bs 40 (by omega)
  obtain ⟨v4, hv4⟩ := u32le_some bs 4 (by omega)
  rw [hcodeE, hbitsE] at hcode
  rw [hchE] at hch
  rw [hbaE, hchE, hbitsE] at hba
  rw [hdszE] at hdsz
  rw [hbitsE] at hmod
  simp only [Option.getD_some] at hcode hch hba hdsz hmod
  have hr0 : NodeWav.read4 bs 0 = some NodeWav.riffMagic := by
    rw [read4_eq bs 0 (by omega)]
    simpa using hriff
  have hr8 : NodeWav.read4 bs 8 = some NodeWav.waveMagic := by
    rw [read4_eq bs 8 (by omega), hwave]
  have hr12 : NodeWav.read4 bs 12 = some NodeWav.fmtTag := by
    rw [read4_eq bs 12 (by omega), hfmt4]
  have hr36 : NodeWav.read4 bs 36 = some NodeWav.dataTag := by
    rw [read4_eq bs 36 (by omega), hdata4]
  have hbits8 : bits / 8 = 1 ∨ bits / 8 = 2 ∨ bits / 8 = 3 ∨ bits / 8 = 4 := by
    rcases hcode with ⟨h1, hb | hb | hb | hb⟩ | ⟨h3, hb⟩ <;> subst hb <;> norm_num
  have hba0 : ba ≠ 0 := by
    rw [hba]
    rcases hbits8 with hb | hb | hb | hb <;> rw [hb] <;> omega
  have hdd : ∃ out, NodeWav.decodeData bits (code == 3) bs 44 ch (dsz / ba) = .ok out := by
    apply decodeData_ok bits (code == 3) bs ch (dsz / ba) hlen ?_ hmod
    rcases hcode with ⟨h1, hb⟩ | ⟨h3, hb⟩
    · exact Or.inl ⟨by rw [h1]; rfl, hb⟩
    · exact Or.inr ⟨by rw [h3]; rfl, hb⟩
  obtain ⟨out, hout⟩ := hdd
  have hwalk36 : NodeWav.chunkWalk bs 36
      (some ⟨code == 3, ch, sr, br, ba, bits⟩) = .ok (sr, out) := by
    rw [NodeWav.chunkWalk.eq_def, dif_pos (by omega : 36 < bs.length)]
    simp only [hr36, hdszE, orRange, Bind.bind, Except.bind]
    rw [if_neg (show ¬(NodeWav.dataTag = NodeWav.fmtTag) from by decide)]
    rw [if_pos trivial]
    simp only [if_neg hba0, pure, Except.pure, show (36 : ℕ) + 8 = 44 from by norm_num, hout]
  have hwalk12 : NodeWav.chunkWalk bs 12 none = .ok (sr, out) := by
    rw [NodeWav.chunkWalk.eq_def, dif_pos (by omega : 12 < bs.length)]
    simp only [hr12, h16, hcodeE, hchE, hsrE, hbrE, hbaE, hbitsE, orRange, Bind.bind,
      Except.bind]
    rw [if_pos trivial]
    rw [if_neg (show ¬(code ≠ 1 ∧ code ≠ 3) from by
      rcases hcode with ⟨h1, hb⟩ | ⟨h3, hb⟩ <;> simp_all)]
    rw [show (12 : ℕ) + 8 + 16 = 36 from by norm_num]
    exact hwalk36
  refine ⟨(sr, out), ?_⟩
  unfold NodeWav.decode
  simp only [hr0, hv4, hr8, orRange, Bind.bind, Except.bind]
  rw [if_neg (by simp), if_neg (by simp)]
  exact hwalk12

/-- C7 (amended): the vendored node-wav decode raises the FormatError
"Invalid WAV file" on every input of at least 12 bytes whose RIFF or WAVE
magic is wrong; it succeeds on every well-formed canonical WAV byte string;
and whenever it raises the unsupported-format FormatError, the offending
fmt code really was outside {1, 3}. -/
theorem c7_vendor_decode_format_errors :
    (∀ bs : List ℕ, 12 ≤ bs.length →
      (bs.take 4 ≠ NodeWav.riffMagic ∨ (bs.drop 8).take 4 ≠ NodeWav.waveMagic) →
      NodeWav.decode bs = .error .invalidWav) ∧
    (∀ bs : List ℕ, WellFormedWav bs → ∃ r, NodeWav.decode bs = .ok r) ∧
    (∀ (bs : List ℕ) (k : ℕ),
      NodeWav.decode bs = .error (.unsupportedFmt k) → k ≠ 1 ∧ k ≠ 3) := by
  refine ⟨c7_badmagic, nodeWav_decode_ok_of_wellFormed, ?_⟩
  intro bs k h
  unfold NodeWav.decode at h
  cases hr : NodeWav.read4 bs 0 with
  | none => simp [hr, orRange, Bind.bind, Except.bind] at h
  | some m1 =>
    simp only [hr, orRange, Bind.bind, Except.bind] at h
    by_cases h1 : m1 ≠ NodeWav.riffMagic
    · rw [if_pos h1] at h
      cases h
    · rw [if_neg h1] at h
      cases hv : Bytes.u32le bs 4 with
      | none => simp [hv] at h
      | some v4 =>
        simp only [hv] at h
        cases hr8 : NodeWav.read4 bs 8 with
        | none => simp [hr8] at h
        | some m2 =>
          simp only [hr8] at h
          by_cases h2 : m2 ≠ NodeWav.waveMagic
          · rw [if_pos h2] at h
            cases h
          · rw [if_neg h2] at h
            exact chunkWalk_unsupportedFmt bs (bs.length - 12) 12 none k rfl h

/-- `bs46` with its fmt code byte (offset 20) set to the unsupported value 2. -/
def bs46f2 : List ℕ :=
  [82, 73, 70, 70, 38, 0, 0, 0, 87, 65, 86, 69, 102, 109, 116, 32, 16, 0, 0, 0,
   2, 0, 1, 0, 68, 172, 0, 0, 136, 88, 1, 0, 2, 0, 16, 0, 100, 97, 116, 97,
   2, 0, 0, 0, 255, 127]

/-- Witness for C7's amended theorem: 44 zero bytes trip the magic check,
`bs46` (an encoder output) decodes successfully, and `bs46f2` raises the
unsupported-format error with code 2 ∉ {1, 3}. -/
theorem c7_vendor_decode_format_errors_witness :
    (12 ≤ (List.replicate 44 0 : List ℕ).length ∧
      ((List.replicate 44 0 : List ℕ).take 4 ≠ NodeWav.riffMagic ∨
        ((List.replicate 44 0 : List ℕ).drop 8).take 4 ≠ NodeWav.waveMagic) ∧
      WellFormedWav bs46 ∧
      NodeWav.decode bs46f2 = .error (.unsupportedFmt 2)) ∧
    NodeWav.decode (List.replicate 44 0) = .error .invalidWav ∧
    (∃ r, NodeWav.decode bs46 = .ok r) ∧
    ((2 : ℕ) ≠ 1 ∧ (2 : ℕ) ≠ 3) := by
  have hdecf2 : NodeWav.decode bs46f2 = .error (.unsupportedFmt 2) := by
    have hr0 : NodeWav.read4 bs46f2 0 = some NodeWav.riffMagic := by decide
    have hv4 : Bytes.u32le bs46f2 4 = some 38 := by decide
    have hr8 : NodeWav.read4 bs46f2 8 = some NodeWav.waveMagic := by decide
    have hr12 : NodeWav.read4 bs46f2 12 = some NodeWav.fmtTag := by decide
    have h16 : Bytes.u32le bs46f2 16 = some 16 := by decide
    have h20 : Bytes.u16le bs46f2 20 = some 2 := by decide
    unfold NodeWav.decode
    simp only [hr0, hv4, hr8, orRange, Bind.bind, Except.bind]
    rw [if_neg (by simp), if_neg (by simp)]
    rw [NodeWav.chunkWalk.eq_def, dif_pos (by decide : 12 < bs46f2.length)]
    simp only [hr12, h16, h20, orRange, Bind.bind, Except.bind]
    rw [if_pos trivial, if_pos (by decide : (2 : ℕ) ≠ 1 ∧ (2 : ℕ) ≠ 3)]
  refine ⟨⟨by decide, by decide, by decide, hdecf2⟩, ?_, ?_, ?_⟩
  · exact c7_vendor_decode_format_errors.1 (List.replicate 44 0) (by decide) (by decide)
  · exact c7_vendor_decode_format_errors.2.1 bs46 (by decide)
  · exact c7_vendor_decode_format_errors.2.2 bs46f2 2 hdecf2

/-! ## TAC container invariants (C1) -/

/-- Containers reachable from the empty container by `writeEntry` calls on
names not already present and arbitrary `removeEntry` calls. -/
inductive Built : TAC ℚ → Prop where
  | empty : Built TAC.empty
  | write (c : TAC ℚ) (n : List ℕ) (w : Wav) (hc : Built c)
      (hfresh : TAC.dictHas c.dict n = false) : Built (TAC.writeEntry c n w)
  | remove (c : TAC ℚ) (n : List ℕ) (hc : Built c) : Built (TAC.removeEntry c n)

/-- One entry's offset does not fall strictly inside another entry's range. -/
def EntrySep (a b : TacDictEntry) : Prop :=
  b.indexOffset ≤ a.indexOffset ∨ a.indexOffset + (entryDataLength a : ℤ) ≤ b.indexOffset

/-- Two entries occupy disjoint arena ranges (zero-length ranges are
trivially disjoint). -/
def Apart (a b : TacDictEntry) : Prop :=
  entryDataLength a = 0 ∨ entryDataLength b = 0 ∨
  a.indexOffset + (entryDataLength a : ℤ) ≤ b.indexOffset ∨
  b.indexOffset + (entryDataLength b : ℤ) ≤ a.indexOffset

/-- The symmetric pair relation maintained between distinct entries. -/
def EntryPair (a b : TacDictEntry) : Prop := EntrySep a b ∧ EntrySep b a ∧ Apart a b

/-- The container invariant: entry lengths tile the arena exactly, every
entry lies inside the arena, entries are pairwise separated, and names are
unique. -/
def TacInv (c : TAC ℚ) : Prop :=
  sumLen c.dict = c.dataChunk.length ∧
  (∀ e ∈ c.dict, 0 ≤ e.indexOffset ∧
    e.indexOffset + (entryDataLength e : ℤ) ≤ (c.dataChunk.length : ℤ)) ∧
  List.Pairwise EntryPair c.dict ∧
  (c.dict.map (·.name)).Nodup

theorem tacInv_empty : TacInv TAC.empty := by
  refine ⟨rfl, ?_, ?_, ?_⟩ <;> simp [TAC.empty]

/-- A valid buffer's flattened channel data has exactly
`sampleCount * channelCount` samples. -/
theorem flatten_length_of_valid (w : Wav) (hw : w.hasValidSampleCount = true) :
    w.raw.flatten.length = (w.raw.headD []).length * w.raw.length := by
  unfold Wav.hasValidSampleCount at hw
  simp only [List.all_eq_true, Bool.and_eq_true, beq_iff_eq] at hw
  rw [List.length_flatten]
  have hall : ∀ x ∈ w.raw.map List.length, x = (w.raw.headD []).length := by
    intro x hx
    obtain ⟨ch, hch, rfl⟩ := List.mem_map.mp hx
    exact (hw ch hch).1
  rw [List.sum_eq_card_nsmul _ _ hall]
  simp [Nat.mul_comm]

/-- `writeEntry` on a fresh name preserves the container invariant. -/
theorem tacInv_write (c : TAC ℚ) (n : List ℕ) (w : Wav) (h : TacInv c)
    (hfresh : TAC.dictHas c.dict n = false) : TacInv (TAC.writeEntry c n w) := by
  obtain ⟨hsum, hbnd, hpw, hnd⟩ := h
  cases hw : w.hasValidSampleCount with
  | false =>
    have : TAC.writeEntry c n w = c := by
      unfold TAC.writeEntry
      rw [hw]
      simp
    rw [this]
    exact ⟨hsum, hbnd, hpw, hnd⟩
  | true =>
    rw [writeEntry_closed_form c n w hw, mapDelete_of_not_has hfresh]
    set E : TacDictEntry :=
      ⟨(c.dataChunk.length : ℤ), (w.raw.headD []).length, w.sampleRate, w.raw.length,
        n.length, n⟩ with hE
    have hlenE : entryDataLength E = w.raw.flatten.length := by
      rw [flatten_length_of_valid w hw]
      rfl
    refine ⟨?_, ?_, ?_, ?_⟩
    · simp only [sumLen, List.map_append, List.sum_append, List.length_append]
      simp [sumLen] at hsum
      simp [hsum, hlenE]
    · intro e he
      simp only [List.length_append]
      rcases List.mem_append.mp he with he | he
      · obtain ⟨h1, h2⟩ := hbnd e he
        constructor
        · exact h1
        · omega
      · rw [List.mem_singleton.mp he]
        constructor
        · exact Int.natCast_nonneg _
        · rw [hE]
          push_cast
          simp only [hlenE]
          omega
    · rw [List.pairwise_append]
      refine ⟨hpw, List.pairwise_singleton _ _, ?_⟩
      intro a ha b hb
      rw [List.mem_singleton.mp hb]
      obtain ⟨h1, h2⟩ := hbnd a ha
      have hEoff : E.indexOffset = (c.dataChunk.length : ℤ) := by rw [hE]
      refine ⟨?_, ?_, ?_⟩
      · right
        rw [hEoff]
        exact h2
      · left
        rw [hEoff]
        omega
      · right; right; left
        rw [hEoff]
        exact h2
    · simp only [List.map_append]
      rw [List.nodup_append]
      refine ⟨hnd, List.nodup_singleton _, ?_⟩
      intro x hx
      have hEname : E.name = n := by rw [hE]
      simp only [List.map_cons, List.map_nil, List.mem_singleton, hEname]
      intro hxn
      rw [dictHas_eq_false_iff] at hfresh
      obtain ⟨e, he, hen⟩ := List.mem_map.mp hx
      rw [hxn] at hen
      exact absurd hen (by simpa using hfresh e he)

/-- A successful `dict.get` splits the dictionary around the found entry;
everything before it has a different name. -/
theorem dict_split (l : List TacDictEntry) (n : List ℕ) (r : TacDictEntry)
    (hget : TAC.dictGet l n = some r) :
    ∃ l₁ l₂, l = l₁ ++ r :: l₂ ∧ (∀ e ∈ l₁, (e.name == n) = false) ∧ r.name = n := by
  induction l with
  | nil => cases hget
  | cons a t ih =>
    unfold TAC.dictGet at hget ih
    rw [List.find?_cons] at hget
    cases hpa : (a.name == n) with
    | true =>
      rw [hpa] at hget
      simp only [cond_true, Option.some.injEq] at hget
      exact ⟨[], t, by rw [hget]; rfl, by simp, by rw [← hget]; exact beq_iff_eq.mp hpa⟩
    | false =>
      rw [hpa] at hget
      simp only [cond_false] at hget
      obtain ⟨l₁, l₂, hl, hl1, hrn⟩ := ih hget
      refine ⟨a :: l₁, l₂, by rw [hl]; rfl, ?_, hrn⟩
      intro e he
      rcases List.mem_cons.mp he with rfl | he
      · exact hpa
      · exact hl1 e he

/-- A shift map that only changes `indexOffset` leaves the entry-length sum
unchanged. -/
theorem sumLen_map_shift (l : List TacDictEntry) (f : TacDictEntry → TacDictEntry)
    (hf : ∀ e, entryDataLength (f e) = entryDataLength e) :
    sumLen (l.map f) = sumLen l := by
  unfold sumLen
  rw [List.map_map]
  congr 1
  exact List.map_congr_left (fun e _ => hf e)

/-- `removeEntry` preserves the container invariant. -/
theorem tacInv_remove (c : TAC ℚ) (n : List ℕ) (h : TacInv c) :
    TacInv (TAC.removeEntry c n) := by
  obtain ⟨hsum, hbnd, hpw, hnd⟩ := h
  cases hget : TAC.dictGet c.dict n with
  | none =>
    simp only [TAC.removeEntry, hget]
    exact ⟨hsum, hbnd, hpw, hnd⟩
  | some r =>
    obtain ⟨l₁, l₂, hl, hl1, hrn⟩ := dict_split c.dict n r hget
    have hrmem : r ∈ c.dict := by
      rw [hl]
      exact List.mem_append_right _ (List.mem_cons_self _ _)
    obtain ⟨hr0, hrle⟩ := hbnd r hrmem
    have hsplice := removeEntry_splice c n r hget hr0 hrle
    have hdict := removeEntry_dict c n r hget
    have hlrN : r.indexOffset.toNat + entryDataLength r ≤ c.dataChunk.length := by omega
    have hN' : (TAC.removeEntry c n).dataChunk.length =
        c.dataChunk.length - entryDataLength r := by
      rw [hsplice]
      rw [List.length_append, List.length_take, List.length_drop]
      omega
    have hl2names : ∀ e ∈ l₂, (e.name == n) = false := by
      intro e he
      rw [hl] at hnd
      simp only [List.map_append, List.map_cons] at hnd
      have hnotin : r.name ∉ l₂.map (fun x => x.name) := by
        have := List.nodup_cons.mp (List.nodup_append.mp hnd).2.1
        exact this.1
      simp only [beq_eq_false_iff_ne, ne_eq]
      intro heq
      exact hnotin (List.mem_map.mpr ⟨e, he, by rw [heq, hrn]⟩)
    have hfilter : c.dict.filter (fun e => !(e.name == n)) = l₁ ++ l₂ := by
      rw [hl, List.filter_append, List.filter_cons]
      rw [show (r.name == n) = true from beq_iff_eq.mpr hrn]
      rw [List.filter_eq_self.mpr (fun e he => by simp [hl1 e he]),
        List.filter_eq_self.mpr (fun e he => by simp [hl2names e he])]
      simp
    rw [hfilter] at hdict
    have hoff : ∀ e : TacDictEntry,
        (if r.indexOffset < e.indexOffset then
          { e with indexOffset := e.indexOffset - (entryDataLength r : ℤ) }
        else e).indexOffset =
        if r.indexOffset < e.indexOffset then
          e.indexOffset - (entryDataLength r : ℤ) else e.indexOffset := by
      intro e
      by_cases hif : r.indexOffset < e.indexOffset <;> simp [hif]
    have hflen : ∀ e : TacDictEntry,
        entryDataLength (if r.indexOffset < e.indexOffset then
          { e with indexOffset := e.indexOffset - (entryDataLength r : ℤ) }
        else e) = entryDataLength e := by
      intro e
      by_cases hif : r.indexOffset < e.indexOffset <;> simp [hif, entryDataLength]
    have hfname : ∀ e : TacDictEntry,
        (if r.indexOffset < e.indexOffset then
          { e with indexOffset := e.indexOffset - (entryDataLength r : ℤ) }
        else e).name = e.name := by
      intro e
      by_cases hif : r.indexOffset < e.indexOffset <;> simp [hif]
    have hmem12 : ∀ e ∈ l₁ ++ l₂, e ∈ c.dict := by
      intro e he
      rw [hl]
      rcases List.mem_append.mp he with h1 | h2
      · exact List.mem_append_left _ h1
      · exact List.mem_append_right _ (List.mem_cons_of_mem _ h2)
    have hpw' := hpw
    rw [hl] at hpw'
    rw [List.pairwise_append] at hpw'
    obtain ⟨hpwl1, hpwr2, hcross⟩ := hpw'
    rw [List.pairwise_cons] at hpwr2
    obtain ⟨hr2, hpwl2⟩ := hpwr2
    have hrel : ∀ e ∈ l₁ ++ l₂, EntryPair e r ∨ EntryPair r e := by
      intro e he
      rcases List.mem_append.mp he with h1 | h2
      · exact Or.inl (hcross e h1 r (List.mem_cons_self _ _))
      · exact Or.inr (hr2 e h2)
    have hpw12 : List.Pairwise EntryPair (l₁ ++ l₂) := by
      rw [List.pairwise_append]
      refine ⟨hpwl1, hpwl2, ?_⟩
      intro a ha b hb
      exact hcross a ha b (List.mem_cons_of_mem _ hb)
    have hsepr : ∀ e ∈ l₁ ++ l₂,
        e.indexOffset ≤ r.indexOffset ∨
        r.indexOffset + (entryDataLength r : ℤ) ≤ e.indexOffset := by
      intro e he
      rcases hrel e he with ⟨-, h2, -⟩ | ⟨h1, -, -⟩
      · exact h2
      · exact h1
    have hapr : ∀ e ∈ l₁ ++ l₂,
        entryDataLength e = 0 ∨ entryDataLength r = 0 ∨
        e.indexOffset + (entryDataLength e : ℤ) ≤ r.indexOffset ∨
        r.indexOffset + (entryDataLength r : ℤ) ≤ e.indexOffset := by
      intro e he
      rcases hrel e he with ⟨-, -, h3⟩ | ⟨-, -, h3⟩
      · exact h3
      · unfold Apart at h3
        tauto
    refine ⟨?_, ?_, ?_, ?_⟩
    · rw [hdict, hN', sumLen_map_shift _ _ hflen]
      have hdec : sumLen c.dict = sumLen l₁ + entryDataLength r + sumLen l₂ := by
        rw [hl]
        unfold sumLen
        simp [List.sum_append]
        omega
      have h12 : sumLen (l₁ ++ l₂) = sumLen l₁ + sumLen l₂ := by
        unfold sumLen
        simp [List.sum_append]
      omega
    · intro e' he'
      rw [hdict] at he'
      obtain ⟨e, he, rfl⟩ := List.mem_map.mp he'
      obtain ⟨he0, hele⟩ := hbnd e (hmem12 e he)
      rw [hN', hoff e, hflen e]
      have hcast : ((c.dataChunk.length - entryDataLength r : ℕ) : ℤ) =
          (c.dataChunk.length : ℤ) - (entryDataLength r : ℤ) := by omega
      rw [hcast]
      have hS := hsepr e he
      have hA := hapr e he
      by_cases hif : r.indexOffset < e.indexOffset
      · simp only [if_pos hif]
        rcases hS with hS | hS <;> rcases hA with hA | hA | hA | hA <;>
          constructor <;> omega
      · simp only [if_neg hif]
        rcases hS with hS | hS <;> rcases hA with hA | hA | hA | hA <;>
          constructor <;> omega
    · rw [hdict, List.pairwise_map]
      refine List.Pairwise.imp_of_mem ?_ hpw12
      intro a b ha hb hab
      obtain ⟨ha0, hale⟩ := hbnd a (hmem12 a ha)
      obtain ⟨hb0, hble⟩ := hbnd b (hmem12 b hb)
      obtain ⟨hab1, hab2, hab3⟩ := hab
      have hSa := hsepr a ha
      have hSb := hsepr b hb
      have hAa := hapr a ha
      have hAb := hapr b hb
      unfold EntrySep at hab1 hab2
      unfold Apart at hab3
      refine ⟨?_, ?_, ?_⟩
      · show _ ∨ _
        rw [hoff a, hoff b, hflen a]
        by_cases hifa : r.indexOffset < a.indexOffset <;>
          by_cases hifb : r.indexOffset < b.indexOffset <;>
          simp only [if_pos, if_neg, hifa, hifb, ite_true, ite_false] <;>
          omega
      · show _ ∨ _
        rw [hoff a, hoff b, hflen b]
        by_cases hifa : r.indexOffset < a.indexOffset <;>
          by_cases hifb : r.indexOffset < b.indexOffset <;>
          simp only [if_pos, if_neg, hifa, hifb, ite_true, ite_false] <;>
          omega
      · show _ ∨ _ ∨ _ ∨ _
        rw [hoff a, hoff b, hflen a, hflen b]
        by_cases hifa : r.indexOffset < a.indexOffset <;>
          by_cases hifb : r.indexOffset < b.indexOffset <;>
          simp only [if_pos, if_neg, hifa, hifb, ite_true, ite_false] <;>
          omega
    · rw [hdict]
      have hmapname : (((l₁ ++ l₂).map (fun e =>
          if r.indexOffset < e.indexOffset then
            { e with indexOffset := e.indexOffset - (entryDataLength r : ℤ) }
          else e)).map (fun x => x.name)) = (l₁ ++ l₂).map (fun x => x.name) := by
        rw [List.map_map]
        exact List.map_congr_left (fun e _ => hfname e)
      show (List.map _ _).Nodup
      rw [hmapname]
      have hsub : List.Sublist ((l₁ ++ l₂).map (fun x => x.name))
          (c.dict.map (fun x => x.name)) := by
        rw [hl]
        exact List.Sublist.map _ ((List.sublist_cons_self r l₂).append_left l₁)
      exact List.Nodup.sublist hsub hnd

/-- C1: every container built from the empty container by `writeEntry` calls
on fresh names and arbitrary `removeEntry` calls satisfies the claimed
invariants: the sum over all dictionary entries of
`sampleCount * channelCount` equals the arena length, every entry's
`[offset, offset + length)` range lies within the arena bounds, and no two
entries' ranges overlap (no arena index lies in both). -/
theorem c1_invariants_without_overwrite (c : TAC ℚ) (hb : Built c) :
    sumLen c.dict = c.dataChunk.length ∧
    (∀ e ∈ c.dict, 0 ≤ e.indexOffset ∧
      e.indexOffset + (entryDataLength e : ℤ) ≤ (c.dataChunk.length : ℤ)) ∧
    List.Pairwise (fun a b => ∀ i : ℤ,
      ¬(a.indexOffset ≤ i ∧ i < a.indexOffset + (entryDataLength a : ℤ) ∧
        b.indexOffset ≤ i ∧ i < b.indexOffset + (entryDataLength b : ℤ)))
      c.dict := by
  have h : TacInv c := by
    induction hb with
    | empty => exact tacInv_empty
    | write c n w hc hfresh ih => exact tacInv_write c n w ih hfresh
    | remove c n hc ih => exact tacInv_remove c n ih
  obtain ⟨h1, h2, h3, h4⟩ := h
  refine ⟨h1, h2, h3.imp ?_⟩
  intro a b hab i hi
  have hap := hab.2.2
  unfold Apart at hap
  omega

/-- The C1 invariants hold of the concrete container obtained by one
`writeEntry` on the empty container. -/
theorem c1_invariants_without_overwrite_witness :
    sumLen cOnce.dict = cOnce.dataChunk.length ∧
    (∀ e ∈ cOnce.dict, 0 ≤ e.indexOffset ∧
      e.indexOffset + (entryDataLength e : ℤ) ≤ (cOnce.dataChunk.length : ℤ)) ∧
    List.Pairwise (fun a b => ∀ i : ℤ,
      ¬(a.indexOffset ≤ i ∧ i < a.indexOffset + (entryDataLength a : ℤ) ∧
        b.indexOffset ≤ i ∧ i < b.indexOffset + (entryDataLength b : ℤ)))
      cOnce.dict :=
  c1_invariants_without_overwrite cOnce
    (Built.write TAC.empty aName wOne Built.empty (by decide))
